import Mathlib

/-!
# Verification of ScrapeMovieInfo (main.go)

Shallow embedding of the Go program `main.go` of the ScrapeMovieInfo
repository.  Strings are modelled as `List Char` (Lean `String` is a wrapper
around `List Char`; wrappers over `String` are provided for concrete
evaluation).  The two regular expressions of `extractMovieCode` are embedded
as deterministic scanning functions; the determinisation is justified in the
doc comments of the corresponding definitions.  The filesystem is modelled as
a decidable existence predicate (for the resolver) and as a list of existing
paths (for the rename pass).
-/

namespace ScrapeMovieInfo

/-! ## Character classes and ASCII case mapping

`[a-zA-Z]` and `\d` of the Go regular expressions, and the ASCII fragment of
`strings.ToUpper` / `strings.ToLower`.  In the program `strings.ToUpper` is
only ever applied to a match of `[a-zA-Z]+-\d+(?:-(?:c|uc))?`, which is pure
ASCII, and on ASCII the Go Unicode case mapping coincides with the ASCII one
modelled here. -/

/-- Character class `[a-z]`. -/
def isLowerCh (c : Char) : Bool := 97 ≤ c.toNat && c.toNat ≤ 122

/-- Character class `[A-Z]`. -/
def isUpperCh (c : Char) : Bool := 65 ≤ c.toNat && c.toNat ≤ 90

/-- Character class `[a-zA-Z]` of the code regex. -/
def isAlphaCh (c : Char) : Bool := isLowerCh c || isUpperCh c

/-- Character class `\d` (= `[0-9]`) of the code regex. -/
def isDigitCh (c : Char) : Bool := 48 ≤ c.toNat && c.toNat ≤ 57

/-- ASCII fragment of Go `strings.ToUpper`, per character. -/
def upCh (c : Char) : Char :=
  if isLowerCh c then Char.ofNat (c.toNat - 32) else c

/-- ASCII fragment of Go `strings.ToLower`, per character. -/
def lowCh (c : Char) : Char :=
  if isUpperCh c then Char.ofNat (c.toNat + 32) else c

/-- Go `strings.ToUpper` (ASCII fragment), on a whole string. -/
def upStr (l : List Char) : List Char := l.map upCh

/-- Go `strings.ToLower` (ASCII fragment), on a whole string. -/
def lowStr (l : List Char) : List Char := l.map lowCh

/-! ## Go `path/filepath` primitives (Unix rules, separator `'/'`)

Translated from the Go standard library implementations used by `main.go`:
`filepath.Base`, `filepath.Ext`, `filepath.Clean`, `filepath.Dir`,
`filepath.Join`, and `strings.TrimSuffix`. -/

/-- The last path element after trailing separators are stripped: working on
the reversed string, first drop the trailing separators, then take up to the
next separator (i.e. everything after the last separator of the stripped
path), and restore the order.  This is the `path[i+1:]` step of Go
`filepath.Base`. -/
def lastElem (p : List Char) : List Char :=
  ((p.reverse.dropWhile (fun c => c = '/')).takeWhile (fun c => c ≠ '/')).reverse

/-- Go `filepath.Base` (Unix): empty path gives `"."`; otherwise strip
trailing separators and keep the part after the last separator; if that is
empty (path was all separators) return `"/"`. -/
def basePath (p : List Char) : List Char :=
  if p.isEmpty then ['.']
  else if (lastElem p).isEmpty then ['/'] else lastElem p

/-- The final slash-separated element of the path, reversed: Go
`filepath.Ext` scans backwards from the end, stopping at a separator. -/
def extTailRev (p : List Char) : List Char :=
  p.reverse.takeWhile (fun c => c ≠ '/')

/-- The characters strictly after the last dot of the final element,
reversed. -/
def extPreRev (p : List Char) : List Char :=
  (extTailRev p).takeWhile (fun c => c ≠ '.')

/-- Go `filepath.Ext`: the suffix of the final slash-separated element
beginning at its last dot; empty if that element has no dot. -/
def extPath (p : List Char) : List Char :=
  if (extPreRev p).length = (extTailRev p).length then []
  else '.' :: (extPreRev p).reverse

/-- Go `strings.TrimSuffix`. -/
def trimSuffix (s suf : List Char) : List Char :=
  if suf.isSuffixOf s then s.take (s.length - suf.length) else s

/-! ## The noise-stripping regex

`regexp.MustCompile(`&#96;`\[.*?\]|\(.*?\)|[-_](com|net|org|xyz)[^.]*`&#96;`)
.ReplaceAllString(base, "")`.

Go `regexp` uses leftmost-first (Perl-like) semantics.  `ReplaceAllString`
deletes successive non-overlapping leftmost matches, resuming the scan at the
end of each match.  The three alternatives start with the distinct trigger
characters `'['`, `'('`, and `'-'`/`'_'`, so at a given position at most one
alternative can start, and the scan below is the exact leftmost-first match
procedure:
* `\[.*?\]` — `.` excludes `'\n'` and `.*?` is lazy, so the match runs from
  `'['` to the **first** following `']'`, and fails if a `'\n'` intervenes or
  no `']'` follows;
* `\(.*?\)` — likewise with parentheses;
* `[-_](com|net|org|xyz)[^.]*` — a literal separator, one of the four
  lowercase words (pairwise distinguished by their first character), then the
  greedy `[^.]*` which consumes every following character (including `'\n'`)
  up to the next `'.'`; nothing follows it in the pattern, so no backtracking
  can occur. -/

/-- Lazy `.*?` followed by the closing character `close`: consume characters
(none of which may be `'\n'`) up to the first occurrence of `close`;
return the remainder after it, or `none` if the match fails. -/
def lazyUntil (close : Char) : List Char → Option (List Char)
  | [] => none
  | c :: cs => if c = close then some cs
      else if c = '\n' then none
      else lazyUntil close cs

/-- Subpattern `(com|net|org|xyz)[^.]*` after the `[-_]` separator: the remainder after
the match, or `none`. -/
def matchUrlTail (l : List Char) : Option (List Char) :=
  if l.take 3 = ['c', 'o', 'm'] ∨ l.take 3 = ['n', 'e', 't'] ∨
     l.take 3 = ['o', 'r', 'g'] ∨ l.take 3 = ['x', 'y', 'z'] then
    some ((l.drop 3).dropWhile (fun c => c ≠ '.'))
  else none

/-- Attempt the noise regex at the current position; `some rest` gives the
remainder of the string after the match. -/
def tryNoiseAt (l : List Char) : Option (List Char) :=
  match l with
  | [] => none
  | c :: cs =>
    if c = '[' then lazyUntil ']' cs
    else if c = '(' then lazyUntil ')' cs
    else if c = '-' ∨ c = '_' then matchUrlTail cs
    else none

/-- Fuelled worker for the noise-deleting scan (fuel = remaining length
bound, so that the function is structurally recursive and kernel-reducible).
-/
def cleanNoiseAux : Nat → List Char → List Char
  | 0, l => l
  | _ + 1, [] => []
  | n + 1, c :: cs =>
    match tryNoiseAt (c :: cs) with
    | some rest => cleanNoiseAux n rest
    | none => c :: cleanNoiseAux n cs

/-- Go `ReplaceAllString(base, "")` for the noise regex: delete successive
non-overlapping leftmost matches. -/
def cleanNoise (l : List Char) : List Char := cleanNoiseAux l.length l

/-! ## The movie-code regex

`regexp.MustCompile(`&#96;`(?i)([a-zA-Z]+-\d+(?:-(?:c|uc))?)`&#96;`)
.FindString(cleaned)`.

`FindString` returns the leftmost-first match (empty string when there is
none; the program compares against `""`, modelled by `Option`).  At a fixed
start position the backtracking search is deterministic:
* `[a-zA-Z]+` is greedy; it is followed by the literal `'-'`, which is not a
  letter, so if the maximal letter run is not followed by `'-'` every shorter
  nonempty prefix of the run ends before another letter and also fails —
  no backtracking into `+` can succeed;
* likewise `\d+` is followed either by the optional `'-'` or by the end of
  the pattern, and `'-'` is not a digit;
* the optional group `(?:-(?:c|uc))?` is greedy: it is taken whenever `'-'`
  followed by `c`/`C` (first alternative) or by `u`/`U` then `c`/`C` is
  present, and nothing follows it in the pattern. -/

/-- The optional, case-insensitive `(?:-(?:c|uc))?` suffix; returns the
matched characters (as found, case preserved), or `[]`. -/
def trySuffix (l : List Char) : List Char :=
  match l with
  | d :: c1 :: rest =>
    if d = '-' then
      if c1 = 'c' ∨ c1 = 'C' then ['-', c1]
      else if c1 = 'u' ∨ c1 = 'U' then
        match rest with
        | c2 :: _ => if c2 = 'c' ∨ c2 = 'C' then ['-', c1, c2] else []
        | [] => []
      else []
    else []
  | _ => []

/-- Attempt the code regex at the current position; `some m` is the matched
substring. -/
def tryCodeAt (l : List Char) : Option (List Char) :=
  let ls := l.takeWhile isAlphaCh
  if ls.isEmpty then none
  else
    match l.dropWhile isAlphaCh with
    | d :: rest =>
      if d = '-' then
        let ds := rest.takeWhile isDigitCh
        if ds.isEmpty then none
        else some (ls ++ '-' :: (ds ++ trySuffix (rest.dropWhile isDigitCh)))
      else none
    | [] => none

/-- Go `FindString` for the code regex: leftmost match, scanning start positions
left to right. -/
def findCode : List Char → Option (List Char)
  | [] => none
  | c :: cs =>
    match tryCodeAt (c :: cs) with
    | some m => some m
    | none => findCode cs

/-! ## `extractMovieCode` -/

/-- The body of `extractMovieCode` after `filepath.Base`:
clean the base name, search for the code, and on success return the
uppercased match with the extension of the (original) base name. -/
def extractBase (base : List Char) : List Char :=
  match findCode (cleanNoise base) with
  | some m => upStr m ++ extPath base
  | none => base

/-- Go `extractMovieCode` (main.go lines 56–73). -/
def extractMovieCode (filename : List Char) : List Char :=
  extractBase (basePath filename)

/-- The function `extractMovieCode` on Lean `String`s. -/
def extractS (s : String) : String := ⟨extractMovieCode s.data⟩

/-! ## `filepath.Clean`, `filepath.Dir`, `filepath.Join`

`filepath.Clean` (Unix) is the lexical normalisation: iterate over the
slash-separated components, dropping empty and `"."` components, resolving
`".."` against the preceding component where possible (dropping it at the
root), and re-join; the empty result becomes `"."` (or `"/"` when rooted).
The formulation below is the standard component-stack reading of the Go
`lazybuf` loop. -/

/-- Split on `'/'`, keeping empty pieces (`strings.Split(s, "/")`). -/
def splitSep : List Char → List (List Char)
  | [] => [[]]
  | c :: cs =>
    if c = '/' then [] :: splitSep cs
    else
      match splitSep cs with
      | p :: ps => (c :: p) :: ps
      | [] => [[c]]

/-- One step of the Go `Clean` loop on the output stack (stack held
top-first).  `rooted` tells whether the path is absolute. -/
def cleanPush (rooted : Bool) (stack : List (List Char)) (comp : List Char) :
    List (List Char) :=
  if comp = [] ∨ comp = ['.'] then stack
  else if comp = ['.', '.'] then
    match stack with
    | [] => if rooted then [] else [['.', '.']]
    | top :: rest => if top = ['.', '.'] then comp :: top :: rest else rest
  else comp :: stack

/-- Process all components of a path. -/
def cleanComps (rooted : Bool) (cs : List (List Char)) : List (List Char) :=
  cs.foldl (cleanPush rooted) []

/-- Join components with `'/'`. -/
def joinParts : List (List Char) → List Char
  | [] => []
  | [p] => p
  | p :: ps => p ++ '/' :: joinParts ps

/-- Reassemble the component stack into a path string. -/
def renderClean (rooted : Bool) (stack : List (List Char)) : List Char :=
  let parts := stack.reverse
  if rooted then '/' :: joinParts parts
  else if parts.isEmpty then ['.'] else joinParts parts

/-- Go `filepath.Clean` (Unix). -/
def cleanPath (p : List Char) : List Char :=
  match p with
  | [] => ['.']
  | c :: _ => renderClean (c = '/') (cleanComps (c = '/') (splitSep p))

/-- Go `filepath.Dir` (Unix): `Clean` of the prefix of the path up to and
including its last separator (the empty prefix, hence `"."`, when the path
has no separator). -/
def dirPath (p : List Char) : List Char :=
  cleanPath ((p.reverse.dropWhile (fun c => c ≠ '/')).reverse)

/-- Go `filepath.Join` on two elements: skip empty elements, then `Clean`
the `'/'`-joined concatenation. -/
def joinPath (d n : List Char) : List Char :=
  if d = [] then (if n = [] then [] else cleanPath n)
  else cleanPath (d ++ '/' :: n)

/-! ## `getUniqueFilePath`

The filesystem is a decidable existence predicate `ex`; `os.Stat(p)`
returning a non-nil error is modelled as `ex p = false` (the program treats
any `Stat` error as "the name is free").  The Go `for` loop has no bound, so
it is embedded with explicit fuel; `uniqueLoop … fuel = none` is the
fuel-exhaustion marker, corresponding to the Go loop still running after
`fuel` probes. -/

/-- Go `fmt.Sprintf("%s_%d%s", nameWithoutExt, counter, ext)`. -/
def probeName (nameWithoutExt : List Char) (counter : Nat) (ext : List Char) :
    List Char :=
  nameWithoutExt ++ '_' :: (Nat.repr counter).data ++ ext

/-- The `for` loop of `getUniqueFilePath` (main.go lines 85–93). -/
def uniqueLoop (ex : List Char → Bool) (dir nameWithoutExt ext : List Char) :
    Nat → Nat → Option (List Char)
  | _, 0 => none
  | counter, fuel + 1 =>
    let newPath := joinPath dir (probeName nameWithoutExt counter ext)
    if ex newPath then uniqueLoop ex dir nameWithoutExt ext (counter + 1) fuel
    else some newPath

/-- Go `getUniqueFilePath` (main.go lines 75–94). -/
def getUniqueFilePath (ex : List Char → Bool) (fuel : Nat)
    (targetPath : List Char) : Option (List Char) :=
  if ex targetPath = false then some targetPath
  else
    let dir := dirPath targetPath
    let ext := extPath targetPath
    let nameWithoutExt := trimSuffix (basePath targetPath) ext
    uniqueLoop ex dir nameWithoutExt ext 1 fuel

/-- The `counter`-th probe path of `getUniqueFilePath targetPath`
(`counter` starting at 1). -/
def probePath (targetPath : List Char) (counter : Nat) : List Char :=
  joinPath (dirPath targetPath)
    (probeName (trimSuffix (basePath targetPath) (extPath targetPath)) counter
      (extPath targetPath))

/-! ## `loadConfig` and the walk filter of `main` -/

/-- The Go `Config` struct. -/
structure Config where
  file_path : String
  video_types : List String
  proxy_addr : String
deriving DecidableEq, Repr

/-- The default configuration of `loadConfig` (main.go lines 22–26). -/
def defaultConfig : Config :=
  { file_path := "./", video_types := [".mp4", ".mkv", ".avi"], proxy_addr := "" }

/-- Outcome of `loadConfig`: the configuration to use together with whether
the default config file was freshly written, or an error message. -/
inductive LoadResult where
  | ok (c : Config) (wroteDefaults : Bool)
  | err (msg : String)
deriving DecidableEq, Repr

/-- Go `loadConfig` (main.go lines 20–53).  `read` is the outcome of
`os.ReadFile` (`none` = error, in particular a missing file) and `parse` the
external `json.Unmarshal` collaborator (`none` = not valid JSON).  On a read
error the defaults are marshalled and written (`json.MarshalIndent` cannot
fail on `defaultConfig`, and the `os.WriteFile` error branch only rewords an
I/O failure, outside the filesystem-free model) and the defaults are
returned; on a parse error an error is returned. -/
def loadConfig (read : Option String) (parse : String → Option Config) :
    LoadResult :=
  match read with
  | none => .ok defaultConfig true
  | some data =>
    match parse data with
    | none => .err "error parsing config file"
    | some config => .ok config false

/-- The guard in `main` (main.go lines 101–105): on a `loadConfig` error the
run aborts (`return`), otherwise it proceeds with the loaded config. -/
def mainProceedsWith (r : LoadResult) : Option Config :=
  match r with
  | .ok c _ => some c
  | .err _ => none

/-- The inner loop of the walk callback (main.go lines 120–125): for each
configured videotype, if the lowercased path has it as a suffix, append the
path and `break`. -/
def appendIfVideo (path : List Char) (acc : List (List Char)) :
    List (List Char) → List (List Char)
  | [] => acc
  | ext :: rest =>
    if ext.isSuffixOf (lowStr path) then acc ++ [path]
    else appendIfVideo path acc rest

/-- The directory walk (main.go lines 110–127) restricted to its pure file
filter: the walk collaborator yields the regular files `paths` in traversal
order, and each is tested against the configured video types. -/
def collectVideoFiles (videoTypes : List (List Char))
    (paths : List (List Char)) : List (List Char) :=
  paths.foldl (fun acc p => appendIfVideo p acc videoTypes) []

/-! ## The rename pass of `main`

The filesystem namespace is a list `fs` of existing paths; `os.Rename`'s
success is decided by the external collaborator `ren` (permissions,
cross-device moves …); a successful rename removes the source and adds the
destination.  One event is recorded per file, mirroring the `fmt.Printf`
lines of main.go lines 139–149; `stuck` marks fuel exhaustion of the
unbounded probe loop (where the Go program would still be looping). -/

inductive FileEvent where
  | renamed (src dst : List Char)
  | renameError (src dst : List Char)
  | skipped (f : List Char)
  | stuck (f : List Char)
deriving DecidableEq, Repr

/-- The `for _, file := range videoFiles` loop of `main`
(main.go lines 135–150). -/
def renamePass (ren : List Char → List Char → Bool) (fuel : Nat)
    (fs : List (List Char)) :
    List (List Char) → List (List Char) × List FileEvent
  | [] => (fs, [])
  | file :: rest =>
    let movieCode := extractMovieCode file
    let newPath := joinPath (dirPath file) movieCode
    if file = newPath then
      let r := renamePass ren fuel fs rest
      (r.1, .skipped file :: r.2)
    else
      match getUniqueFilePath (fun p => fs.contains p) fuel newPath with
      | none =>
        let r := renamePass ren fuel fs rest
        (r.1, .stuck file :: r.2)
      | some uniquePath =>
        if ren file uniquePath then
          let r := renamePass ren fuel (uniquePath :: fs.erase file) rest
          (r.1, .renamed file uniquePath :: r.2)
        else
          let r := renamePass ren fuel fs rest
          (r.1, .renameError file uniquePath :: r.2)

/-! ## C1 — shape of a successful extraction -/

/-- Shape of a match of the optional `(?:-(?:c|uc))?` group. -/
def SuffixShape (S : List Char) : Prop :=
  S = [] ∨ (∃ c1, (c1 = 'c' ∨ c1 = 'C') ∧ S = ['-', c1]) ∨
    (∃ c1 c2, (c1 = 'u' ∨ c1 = 'U') ∧ (c2 = 'c' ∨ c2 = 'C') ∧ S = ['-', c1, c2])

/-- Shape of a match of `(?i)([a-zA-Z]+-\d+(?:-(?:c|uc))?)`. -/
def CodeShape (m : List Char) : Prop :=
  ∃ L D S, m = L ++ '-' :: (D ++ S) ∧ L ≠ [] ∧ L.all isAlphaCh = true ∧
    D ≠ [] ∧ D.all isDigitCh = true ∧ SuffixShape S

/-- The invariant of §3 of the spec, as a boolean checker: the string is
exactly uppercase `LETTERS-DIGITS`, optionally followed by `-C` or `-UC`. -/
def isUpperCode (l : List Char) : Bool :=
  let ls := l.takeWhile isUpperCh
  if ls.isEmpty then false
  else
    match l.dropWhile isUpperCh with
    | d :: rest =>
      if d = '-' then
        let ds := rest.takeWhile isDigitCh
        if ds.isEmpty then false
        else
          let r2 := rest.dropWhile isDigitCh
          decide (r2 = [] ∨ r2 = ['-', 'C'] ∨ r2 = ['-', 'U', 'C'])
      else false
    | [] => false

/-! ## Lexical path algebra: `Clean`, `Dir`, `Join` on clean paths

These lemmas describe `filepath.Clean` outputs through their component
stacks, and culminate in: joining a clean directory with a normal element
and taking `Dir`/`Base` of the result recovers the pieces.  They serve the
idempotence of the rename pass (C6). -/

/-- A normal path component: nonempty, not `"."`, not `".."`, and free of
separators. -/
def Norm (m : List Char) : Prop :=
  m ≠ [] ∧ m ≠ ['.'] ∧ m ≠ ['.', '.'] ∧ ∀ c ∈ m, c ≠ '/'

/-- Invariant of the `Clean` output stack (held top-first): normal
components on top of a run of `".."`s; rooted stacks have no `".."`s. -/
def StackOK (rooted : Bool) (S : List (List Char)) : Prop :=
  ∃ ns ds, S = ns ++ ds ∧ (∀ x ∈ ns, Norm x) ∧ (∀ x ∈ ds, x = ['.', '.']) ∧
    (rooted = true → ds = [])

/-- The target `newPath` as computed for each file by `main` (main.go line 137). -/
def renameTarget (f : List Char) : List Char :=
  joinPath (dirPath f) (extractMovieCode f)

/-- A successful noise match consumes at least one character. -/
theorem lazyUntil_length {close : Char} :
    ∀ {l r : List Char}, lazyUntil close l = some r → r.length < l.length := by
  intro l
  induction l with
  | nil => intro r h; simp [lazyUntil] at h
  | cons c cs ih =>
    intro r h
    simp only [lazyUntil] at h
    split at h
    · cases h; simp
    · split at h
      · cases h
      · exact Nat.lt_trans (ih h) (by simp)

theorem matchUrlTail_length {l r : List Char} (h : matchUrlTail l = some r) :
    r.length ≤ l.length := by
  simp only [matchUrlTail] at h
  split at h
  · cases h
    calc ((l.drop 3).dropWhile (fun c => c ≠ '.')).length
        ≤ (l.drop 3).length := (List.dropWhile_suffix _).length_le
      _ ≤ l.length := by simp
  · cases h

theorem tryNoiseAt_length {l r : List Char} (h : tryNoiseAt l = some r) :
    r.length < l.length := by
  match l with
  | [] => simp [tryNoiseAt] at h
  | c :: cs =>
    simp only [tryNoiseAt] at h
    split at h
    · exact Nat.lt_trans (lazyUntil_length h) (by simp)
    · split at h
      · exact Nat.lt_trans (lazyUntil_length h) (by simp)
      · split at h
        · exact Nat.lt_of_le_of_lt (matchUrlTail_length h) (by simp)
        · cases h

/-- The fuel of `cleanNoiseAux` is irrelevant once it dominates the length. -/
theorem cleanNoiseAux_fuel :
    ∀ (n : Nat) (l : List Char), l.length ≤ n →
      cleanNoiseAux n l = cleanNoiseAux l.length l := by
  intro n
  induction n using Nat.strong_induction_on with
  | _ n ih =>
    match n with
    | 0 =>
      intro l h
      have hl : l = [] := List.length_eq_zero.mp (Nat.le_zero.mp h)
      subst hl; rfl
    | n + 1 =>
      intro l h
      match l with
      | [] => simp [cleanNoiseAux]
      | c :: cs =>
        have hcs : cs.length ≤ n := by simpa using h
        cases htry : tryNoiseAt (c :: cs) with
        | some rest =>
          have hlen : rest.length < cs.length + 1 := by
            simpa using tryNoiseAt_length htry
          have h1 : cleanNoiseAux (n + 1) (c :: cs) = cleanNoiseAux n rest := by
            simp [cleanNoiseAux, htry]
          have h2 : cleanNoiseAux (cs.length + 1) (c :: cs)
              = cleanNoiseAux cs.length rest := by
            simp [cleanNoiseAux, htry]
          rw [List.length_cons, h1, h2,
            ih n (by omega) rest (by omega),
            ih cs.length (by omega) rest (by omega)]
        | none =>
          have h1 : cleanNoiseAux (n + 1) (c :: cs) = c :: cleanNoiseAux n cs := by
            simp [cleanNoiseAux, htry]
          have h2 : cleanNoiseAux (cs.length + 1) (c :: cs)
              = c :: cleanNoiseAux cs.length cs := by
            simp [cleanNoiseAux, htry]
          rw [List.length_cons, h1, h2, ih n (by omega) cs hcs]

/-- Recursion equation of `cleanNoise`. -/
theorem cleanNoise_cons (c : Char) (cs : List Char) :
    cleanNoise (c :: cs) =
      match tryNoiseAt (c :: cs) with
      | some rest => cleanNoise rest
      | none => c :: cleanNoise cs := by
  cases htry : tryNoiseAt (c :: cs) with
  | some rest =>
    have hlen : rest.length < cs.length + 1 := by
      simpa using tryNoiseAt_length htry
    have h1 : cleanNoise (c :: cs) = cleanNoiseAux cs.length rest := by
      show cleanNoiseAux (c :: cs).length (c :: cs) = _
      rw [List.length_cons]; simp [cleanNoiseAux, htry]
    rw [h1, cleanNoiseAux_fuel cs.length rest (by omega)]; rfl
  | none =>
    have h1 : cleanNoise (c :: cs) = c :: cleanNoiseAux cs.length cs := by
      show cleanNoiseAux (c :: cs).length (c :: cs) = _
      rw [List.length_cons]; simp [cleanNoiseAux, htry]
    rw [h1]; rfl

/-! ## Character-level lemmas -/

theorem toNat_ofNat_small {n : Nat} (h : n < 0xd800) : (Char.ofNat n).toNat = n := by
  rw [Char.ofNat, dif_pos (Or.inl h : n.isValidChar)]
  simp [Char.ofNatAux, Char.toNat, UInt32.toNat, BitVec.toNat_ofNatLt]

theorem isLowerCh_iff {c : Char} :
    isLowerCh c = true ↔ 97 ≤ c.toNat ∧ c.toNat ≤ 122 := by
  simp [isLowerCh]

theorem isUpperCh_iff {c : Char} :
    isUpperCh c = true ↔ 65 ≤ c.toNat ∧ c.toNat ≤ 90 := by
  simp [isUpperCh]

theorem isDigitCh_iff {c : Char} :
    isDigitCh c = true ↔ 48 ≤ c.toNat ∧ c.toNat ≤ 57 := by
  simp [isDigitCh]

theorem upCh_toNat_of_lower {c : Char} (h : isLowerCh c = true) :
    (upCh c).toNat = c.toNat - 32 := by
  rw [upCh, if_pos h]
  exact toNat_ofNat_small (by have := isLowerCh_iff.mp h; omega)

theorem upCh_of_not_lower {c : Char} (h : ¬ isLowerCh c = true) : upCh c = c := by
  rw [upCh, if_neg h]

theorem isUpperCh_upCh {c : Char} (h : isAlphaCh c = true) :
    isUpperCh (upCh c) = true := by
  rcases Bool.or_eq_true _ _ |>.mp h with hl | hu
  · rw [isUpperCh_iff, upCh_toNat_of_lower hl]
    have := isLowerCh_iff.mp hl; omega
  · have hnl : ¬ isLowerCh c = true := by
      rw [isLowerCh_iff]; have := isUpperCh_iff.mp hu; omega
    rw [upCh_of_not_lower hnl]; exact hu

theorem upCh_of_digit {c : Char} (h : isDigitCh c = true) : upCh c = c := by
  apply upCh_of_not_lower
  rw [isLowerCh_iff]; have := isDigitCh_iff.mp h; omega

theorem upCh_idem (c : Char) : upCh (upCh c) = upCh c := by
  by_cases hl : isLowerCh c = true
  · apply upCh_of_not_lower
    rw [isLowerCh_iff, upCh_toNat_of_lower hl]
    have := isLowerCh_iff.mp hl; omega
  · rw [upCh_of_not_lower hl, upCh_of_not_lower hl]

theorem upCh_dash : upCh '-' = '-' := by decide

/-- An uppercase letter is none of the characters that matter to the two
regular expressions. -/
theorem isUpperCh_ne {c : Char} (h : isUpperCh c = true) :
    c ≠ '[' ∧ c ≠ '(' ∧ c ≠ '-' ∧ c ≠ '_' ∧ c ≠ '.' ∧ c ≠ '/' ∧
    c ≠ 'c' ∧ c ≠ 'n' ∧ c ≠ 'o' ∧ c ≠ 'x' := by
  refine ⟨?_, ?_, ?_, ?_, ?_, ?_, ?_, ?_, ?_, ?_⟩ <;>
    (intro hc; subst hc; exact absurd h (by decide))

theorem isDigitCh_ne {c : Char} (h : isDigitCh c = true) :
    c ≠ '[' ∧ c ≠ '(' ∧ c ≠ '-' ∧ c ≠ '_' ∧ c ≠ '.' ∧ c ≠ '/' ∧
    c ≠ 'c' ∧ c ≠ 'n' ∧ c ≠ 'o' ∧ c ≠ 'x' := by
  refine ⟨?_, ?_, ?_, ?_, ?_, ?_, ?_, ?_, ?_, ?_⟩ <;>
    (intro hc; subst hc; exact absurd h (by decide))

/-- A `strings.ToLower` output never contains an uppercase ASCII letter. -/
theorem lowCh_not_upper (c : Char) : isUpperCh (lowCh c) = false := by
  by_cases hu : isUpperCh c = true
  · have hn := isUpperCh_iff.mp hu
    rw [lowCh, if_pos hu]
    have ht : (Char.ofNat (c.toNat + 32)).toNat = c.toNat + 32 :=
      toNat_ofNat_small (by omega)
    rw [← Bool.not_eq_true, isUpperCh_iff, ht]
    omega
  · rw [lowCh, if_neg hu]
    exact Bool.not_eq_true _ |>.mp hu

/-! ## Basic lemmas on the program's regex scanners -/

theorem tryNoiseAt_none_plain {c : Char} {l : List Char}
    (h1 : c ≠ '[') (h2 : c ≠ '(') (h3 : c ≠ '-') (h4 : c ≠ '_') :
    tryNoiseAt (c :: l) = none := by
  simp [tryNoiseAt, h1, h2, h3, h4]

theorem matchUrlTail_none_head {d : Char} {l : List Char}
    (h1 : d ≠ 'c') (h2 : d ≠ 'n') (h3 : d ≠ 'o') (h4 : d ≠ 'x') :
    matchUrlTail (d :: l) = none := by
  have : ∀ a b : List Char, (d :: a).take 3 ≠ d :: b → True := fun _ _ _ => trivial
  simp only [matchUrlTail]
  rw [if_neg]
  push_neg
  refine ⟨?_, ?_, ?_, ?_⟩ <;>
    (intro hc
     have := List.head_eq_of_cons_eq ((List.take_cons_succ ..).symm.trans hc)
     simp_all)

theorem tryNoiseAt_none_sep {c : Char} {l : List Char}
    (hc : c = '-' ∨ c = '_') (h : matchUrlTail l = none) :
    tryNoiseAt (c :: l) = none := by
  rcases hc with hc | hc <;> subst hc <;> simp [tryNoiseAt, h]

theorem cleanNoise_cons_of_none {c : Char} {cs : List Char}
    (h : tryNoiseAt (c :: cs) = none) :
    cleanNoise (c :: cs) = c :: cleanNoise cs := by
  rw [cleanNoise_cons, h]

theorem cleanNoise_cons_of_some {c : Char} {cs rest : List Char}
    (h : tryNoiseAt (c :: cs) = some rest) :
    cleanNoise (c :: cs) = cleanNoise rest := by
  rw [cleanNoise_cons, h]

/-! ## C5 — config loading -/

/-- C5: when the config file is absent, `loadConfig` creates it with the
default values (root directory `"./"`, the three default video container
extensions, empty proxy) and the run proceeds with those defaults; when the
file is present but not valid JSON, `loadConfig` returns an error and the
run aborts. -/
theorem C5_loadConfig_defaults_and_abort :
    (∀ parse : String → Option Config,
      loadConfig none parse = .ok defaultConfig true ∧
      mainProceedsWith (loadConfig none parse) = some defaultConfig ∧
      defaultConfig = { file_path := "./", video_types := [".mp4", ".mkv", ".avi"],
                        proxy_addr := "" }) ∧
    (∀ (data : String) (parse : String → Option Config), parse data = none →
      loadConfig (some data) parse = .err "error parsing config file" ∧
      mainProceedsWith (loadConfig (some data) parse) = none) := by
  constructor
  · intro parse
    exact ⟨rfl, rfl, rfl⟩
  · intro data parse h
    simp [loadConfig, h, mainProceedsWith]

theorem C5_loadConfig_witness :
    (loadConfig none (fun _ => none) = .ok defaultConfig true ∧
      mainProceedsWith (loadConfig none (fun _ => none)) = some defaultConfig ∧
      defaultConfig = { file_path := "./", video_types := [".mp4", ".mkv", ".avi"],
                        proxy_addr := "" }) ∧
    (loadConfig (some "not json") (fun _ => none) = .err "error parsing config file" ∧
      mainProceedsWith (loadConfig (some "not json") (fun _ => none)) = none) :=
  ⟨C5_loadConfig_defaults_and_abort.1 (fun _ => none),
   C5_loadConfig_defaults_and_abort.2 "not json" (fun _ => none) rfl⟩

/-! ## C4 — extraction fallback -/

/-- C4: for every filename whose cleaned base name contains no
letters-hyphen-digits pattern, `extractMovieCode` returns the original base
name unchanged; in particular `extract("randomfile.mp4") = "randomfile.mp4"`.
-/
theorem C4_extract_fallback :
    (∀ f : List Char, findCode (cleanNoise (basePath f)) = none →
      extractMovieCode f = basePath f) ∧
    extractS "randomfile.mp4" = "randomfile.mp4" := by
  constructor
  · intro f h
    unfold extractMovieCode extractBase
    rw [h]
  · decide

theorem C4_extract_fallback_witness :
    findCode (cleanNoise (basePath ("randomfile.mp4".data))) = none ∧
    extractMovieCode ("randomfile.mp4".data) = basePath ("randomfile.mp4".data) :=
  ⟨by decide, C4_extract_fallback.1 ("randomfile.mp4".data) (by decide)⟩

/-! ## C2 and C8 — the unique-path resolver -/

theorem uniqueLoop_some {ex : List Char → Bool} {d nm e : List Char} :
    ∀ (fuel counter : Nat) (r : List Char),
      uniqueLoop ex d nm e counter fuel = some r →
      ∃ n, counter ≤ n ∧ ex (joinPath d (probeName nm n e)) = false ∧
        r = joinPath d (probeName nm n e) ∧
        ∀ k, counter ≤ k → k < n → ex (joinPath d (probeName nm k e)) = true := by
  intro fuel
  induction fuel with
  | zero => intro c r h; simp [uniqueLoop] at h
  | succ fuel ih =>
    intro c r h
    simp only [uniqueLoop] at h
    cases hex : ex (joinPath d (probeName nm c e)) with
    | true =>
      rw [hex] at h
      simp only [if_true] at h
      obtain ⟨n, hcn, hfree, hr, hall⟩ := ih (c + 1) r h
      refine ⟨n, by omega, hfree, hr, fun k hk1 hk2 => ?_⟩
      rcases Nat.eq_or_lt_of_le hk1 with hk | hk
      · exact hk ▸ hex
      · exact hall k hk hk2
    | false =>
      rw [hex] at h
      simp only [Bool.false_eq_true, if_false, Option.some.injEq] at h
      exact ⟨c, le_refl c, hex, h.symm, fun k hk1 hk2 => absurd hk1 (by omega)⟩

theorem uniqueLoop_none {ex : List Char → Bool} {d nm e : List Char} :
    ∀ (fuel counter : Nat), uniqueLoop ex d nm e counter fuel = none →
      ∀ k, counter ≤ k → k < counter + fuel →
        ex (joinPath d (probeName nm k e)) = true := by
  intro fuel
  induction fuel with
  | zero => intro c _ k hk1 hk2; omega
  | succ fuel ih =>
    intro c h k hk1 hk2
    simp only [uniqueLoop] at h
    cases hex : ex (joinPath d (probeName nm c e)) with
    | true =>
      rw [hex] at h
      simp only [if_true] at h
      rcases Nat.eq_or_lt_of_le hk1 with hk | hk
      · exact hk ▸ hex
      · exact ih (c + 1) h k hk (by omega)
    | false =>
      rw [hex] at h
      simp at h

theorem uniqueLoop_some_of_free {ex : List Char → Bool} {d nm e : List Char} :
    ∀ (fuel counter : Nat),
      (∃ n, counter ≤ n ∧ n < counter + fuel ∧
        ex (joinPath d (probeName nm n e)) = false) →
      ∃ r, uniqueLoop ex d nm e counter fuel = some r := by
  intro fuel
  induction fuel with
  | zero => intro c ⟨n, h1, h2, _⟩; omega
  | succ fuel ih =>
    intro c ⟨n, h1, h2, h3⟩
    simp only [uniqueLoop]
    cases hex : ex (joinPath d (probeName nm c e)) with
    | true =>
      simp only [if_true]
      apply ih (c + 1)
      have hnc : n ≠ c := fun hc => by rw [hc, hex] at h3; cases h3
      exact ⟨n, by omega, by omega, h3⟩
    | false => exact ⟨_, rfl⟩

/-- C2: `resolve(p) = p` whenever no entry exists at `p`; and when an entry
exists at `p`, the returned path is the first probe
`stem_1.ext, stem_2.ext, …` (counter starting at 1) at which no entry
exists — in particular the result differs from `p` and no entry exists at it
at the moment of return. -/
theorem C2_resolver_unique_path :
    (∀ (ex : List Char → Bool) (fuel : Nat) (p : List Char), ex p = false →
      getUniqueFilePath ex fuel p = some p) ∧
    (∀ (ex : List Char → Bool) (fuel : Nat) (p r : List Char),
      ex p = true → getUniqueFilePath ex fuel p = some r →
      ex r = false ∧ r ≠ p ∧
      ∃ n, 1 ≤ n ∧ r = probePath p n ∧ ex (probePath p n) = false ∧
        ∀ k, 1 ≤ k → k < n → ex (probePath p k) = true) := by
  constructor
  · intro ex fuel p h
    simp [getUniqueFilePath, h]
  · intro ex fuel p r hex h
    rw [getUniqueFilePath, if_neg (by simp [hex])] at h
    obtain ⟨n, h1, hfree, hr, hall⟩ := uniqueLoop_some fuel 1 r h
    have hexr : ex r = false := hr ▸ hfree
    refine ⟨hexr, fun hrp => ?_, n, h1, hr, hfree, hall⟩
    rw [hrp, hex] at hexr
    cases hexr

theorem C2_resolver_unique_path_witness :
    getUniqueFilePath (fun p => p == "d/a.mp4".data) 3 ("d/b.mp4".data)
      = some ("d/b.mp4".data) ∧
    ((fun p => p == "d/a.mp4".data) ("d/a_1.mp4".data) = false ∧
      "d/a_1.mp4".data ≠ "d/a.mp4".data ∧
      ∃ n, 1 ≤ n ∧ "d/a_1.mp4".data = probePath ("d/a.mp4".data) n ∧
        (fun p => p == "d/a.mp4".data) (probePath ("d/a.mp4".data) n) = false ∧
        ∀ k, 1 ≤ k → k < n →
          (fun p => p == "d/a.mp4".data) (probePath ("d/a.mp4".data) k) = true) :=
  ⟨C2_resolver_unique_path.1 (fun p => p == "d/a.mp4".data) 3 ("d/b.mp4".data)
      (by decide),
   C2_resolver_unique_path.2 (fun p => p == "d/a.mp4".data) 3 ("d/a.mp4".data)
      ("d/a_1.mp4".data) (by decide) (by decide)⟩

/-- C8: the probe loop is unbounded (fuel-indexed here) and stops exactly at
the first free probe: if the loop is still running after `fuel` probes then
probes `1..fuel` all exist; and under the precondition that some probe
`N ≥ 1` is free, the resolver terminates within `N` probes and returns the
first free probe. -/
theorem C8_resolver_termination :
    (∀ (ex : List Char → Bool) (p : List Char) (N : Nat),
      ex p = true → 1 ≤ N → ex (probePath p N) = false →
      ∃ r, getUniqueFilePath ex N p = some r ∧
        ∃ n, 1 ≤ n ∧ n ≤ N ∧ r = probePath p n ∧ ex (probePath p n) = false ∧
          ∀ k, 1 ≤ k → k < n → ex (probePath p k) = true) ∧
    (∀ (ex : List Char → Bool) (fuel : Nat) (p : List Char),
      getUniqueFilePath ex fuel p = none →
      ∀ k, 1 ≤ k → k ≤ fuel → ex (probePath p k) = true) := by
  constructor
  · intro ex p N hex hN hfree
    rw [getUniqueFilePath, if_neg (by simp [hex])]
    obtain ⟨r, hr⟩ := @uniqueLoop_some_of_free ex (dirPath p)
      (trimSuffix (basePath p) (extPath p)) (extPath p) N 1
      ⟨N, hN, by omega, hfree⟩
    obtain ⟨n, h1, hfree', hr', hall⟩ := uniqueLoop_some N 1 r hr
    have hnN : n ≤ N := by
      by_contra hgt
      push_neg at hgt
      have hNt := hall N hN hgt
      rw [show joinPath (dirPath p)
            (probeName (trimSuffix (basePath p) (extPath p)) N (extPath p))
          = probePath p N from rfl, hfree] at hNt
      cases hNt
    exact ⟨r, hr, n, h1, hnN, hr', hfree', hall⟩
  · intro ex fuel p h k hk1 hk2
    rw [getUniqueFilePath] at h
    by_cases hex : ex p = false
    · rw [if_pos hex] at h; cases h
    · rw [if_neg hex] at h
      exact uniqueLoop_none fuel 1 h k hk1 (by omega)

theorem C8_resolver_termination_witness :
    (∃ r, getUniqueFilePath (fun p => p == "d/a.mp4".data) 1 ("d/a.mp4".data)
        = some r ∧
      ∃ n, 1 ≤ n ∧ n ≤ 1 ∧ r = probePath ("d/a.mp4".data) n ∧
        (fun p => p == "d/a.mp4".data) (probePath ("d/a.mp4".data) n) = false ∧
        ∀ k, 1 ≤ k → k < n →
          (fun p => p == "d/a.mp4".data) (probePath ("d/a.mp4".data) k) = true) ∧
    (∀ k, 1 ≤ k → k ≤ 2 →
      (fun p => p == "a".data || p == "a_1".data || p == "a_2".data)
        (probePath ("a".data) k) = true) :=
  ⟨C8_resolver_termination.1 (fun p => p == "d/a.mp4".data) ("d/a.mp4".data) 1
      (by decide) (by decide) (by decide),
   C8_resolver_termination.2
      (fun p => p == "a".data || p == "a_1".data || p == "a_2".data) 2 ("a".data)
      (by decide)⟩

/-! ## C7 — per-file rename failure -/

theorem renamePass_length (ren : List Char → List Char → Bool) (fuel : Nat) :
    ∀ (files fs : List (List Char)),
      ((renamePass ren fuel fs files).2).length = files.length := by
  intro files
  induction files with
  | nil => intro fs; rfl
  | cons file rest ih =>
    intro fs
    simp only [renamePass]
    by_cases heq : file = joinPath (dirPath file) (extractMovieCode file)
    · rw [if_pos heq]; simp [ih]
    · rw [if_neg heq]
      cases hu : getUniqueFilePath (fun p => fs.contains p) fuel
          (joinPath (dirPath file) (extractMovieCode file)) with
      | none => simp [ih]
      | some uniquePath =>
        cases hren : ren file uniquePath with
        | true => simp [hren, ih]
        | false => simp [hren, ih]

/-- C7: when the rename of an individual file fails, a `renameError` event is
reported, the file is left where it was (the filesystem is unchanged), and
processing continues with the remaining files exactly as it would have;
every file in the list yields exactly one event, so a per-file failure never
aborts the run, and the events/filesystem of the already-processed prefix are
untouched (no rollback). -/
theorem C7_rename_failure_continues :
    (∀ (ren : List Char → List Char → Bool) (fuel : Nat)
       (fs : List (List Char)) (file : List Char) (rest : List (List Char))
       (uniquePath : List Char),
      file ≠ joinPath (dirPath file) (extractMovieCode file) →
      getUniqueFilePath (fun p => fs.contains p) fuel
          (joinPath (dirPath file) (extractMovieCode file)) = some uniquePath →
      ren file uniquePath = false →
      renamePass ren fuel fs (file :: rest) =
        ((renamePass ren fuel fs rest).1,
          .renameError file uniquePath :: (renamePass ren fuel fs rest).2)) ∧
    (∀ (ren : List Char → List Char → Bool) (fuel : Nat)
       (files fs : List (List Char)),
      ((renamePass ren fuel fs files).2).length = files.length) := by
  constructor
  · intro ren fuel fs file rest uniquePath hne hu hren
    simp only [renamePass]
    rw [if_neg hne, hu]
    simp [hren]
  · exact renamePass_length

theorem C7_rename_failure_continues_witness :
    renamePass (fun _ _ => false) 3 [] ("d/zz.ab-12.mp4".data :: []) =
      ((renamePass (fun _ _ => false) 3 [] []).1,
        .renameError ("d/zz.ab-12.mp4".data) ("d/AB-12.mp4".data)
          :: (renamePass (fun _ _ => false) 3 [] []).2) :=
  C7_rename_failure_continues.1 (fun _ _ => false) 3 [] ("d/zz.ab-12.mp4".data)
    [] ("d/AB-12.mp4".data) (by decide) (by decide) rfl

/-! ## C10 — the walk filter -/

theorem appendIfVideo_spec (p : List Char) (acc : List (List Char)) :
    ∀ types : List (List Char),
      appendIfVideo p acc types =
        if types.any (fun e => e.isSuffixOf (lowStr p)) then acc ++ [p] else acc := by
  intro types
  induction types with
  | nil => simp [appendIfVideo]
  | cons e rest ih =>
    simp only [appendIfVideo, List.any_cons]
    by_cases he : e.isSuffixOf (lowStr p) = true
    · simp [he]
    · simp only [Bool.not_eq_true] at he
      simp [he, ih]

theorem collectVideoFiles_eq_filter (types : List (List Char)) :
    ∀ paths, collectVideoFiles types paths =
      paths.filter (fun p => types.any (fun e => e.isSuffixOf (lowStr p))) := by
  have aux : ∀ (paths acc : List (List Char)),
      paths.foldl (fun acc p => appendIfVideo p acc types) acc =
        acc ++ paths.filter (fun p => types.any (fun e => e.isSuffixOf (lowStr p))) := by
    intro paths
    induction paths with
    | nil => intro acc; simp
    | cons p rest ih =>
      intro acc
      rw [List.foldl_cons, appendIfVideo_spec, List.filter_cons]
      by_cases h : (types.any fun e => e.isSuffixOf (lowStr p)) = true
      · simp [h, ih]
      · simp only [Bool.not_eq_true] at h
        simp [h, ih]
  intro paths
  simpa using aux paths []

/-- C10: a walked regular file is collected if and only if its full path,
lowercased, ends with one of the configured video-type strings compared
verbatim; a collected file is collected exactly once per walk visit even when
it matches several configured types; and a configured type containing an
uppercase ASCII letter never matches anything (so filename matching is
case-insensitive precisely for lowercase configured types). -/
theorem C10_video_filter :
    (∀ (videoTypes paths : List (List Char)) (p : List Char),
      p ∈ collectVideoFiles videoTypes paths ↔
        p ∈ paths ∧ (videoTypes.any fun e => e.isSuffixOf (lowStr p)) = true) ∧
    (∀ (videoTypes paths : List (List Char)) (p : List Char),
      (collectVideoFiles videoTypes paths).count p =
        if (videoTypes.any fun e => e.isSuffixOf (lowStr p)) = true
        then paths.count p else 0) ∧
    (∀ (ext p : List Char) (c : Char), c ∈ ext → isUpperCh c = true →
      ext.isSuffixOf (lowStr p) = false) := by
  refine ⟨?_, ?_, ?_⟩
  · intro videoTypes paths p
    rw [collectVideoFiles_eq_filter]
    simp [List.mem_filter]
  · intro videoTypes paths p
    rw [collectVideoFiles_eq_filter]
    by_cases h : (videoTypes.any fun e => e.isSuffixOf (lowStr p)) = true
    · rw [if_pos h]
      exact List.count_filter (by simpa using h)
    · rw [if_neg h]
      rw [List.count_eq_zero]
      intro hmem
      exact h (by simpa using (List.mem_filter.mp hmem).2)
  · intro ext p c hc hup
    rw [← Bool.not_eq_true]
    intro hsuf
    have hmem : c ∈ lowStr p :=
      List.IsSuffix.mem hc (List.isSuffixOf_iff_suffix.mp hsuf)
    obtain ⟨d, _, hd⟩ := List.mem_map.mp hmem
    rw [← hd, lowCh_not_upper] at hup
    cases hup

theorem C10_video_filter_witness :
    ("a/B.MP4".data ∈
        collectVideoFiles [".mp4".data] ["a/B.MP4".data, "a/c.txt".data] ↔
      "a/B.MP4".data ∈ (["a/B.MP4".data, "a/c.txt".data] : List (List Char)) ∧
        ([".mp4".data].any fun e => e.isSuffixOf (lowStr "a/B.MP4".data)) = true) ∧
    (".MP4".data : List Char).isSuffixOf (lowStr "x.mp4".data) = false :=
  ⟨C10_video_filter.1 [".mp4".data] ["a/B.MP4".data, "a/c.txt".data] "a/B.MP4".data,
   C10_video_filter.2.2 ".MP4".data "x.mp4".data 'M' (by decide) (by decide)⟩

/-! ## C3 — cleaning before search, leftmost-first matching -/

theorem tryCodeAt_nil : tryCodeAt [] = none := rfl

/-- The scan `findCode` returns exactly the match at the leftmost start position at
which the code pattern matches. -/
theorem findCode_eq_some_iff :
    ∀ {l m : List Char},
      findCode l = some m ↔
        ∃ i, tryCodeAt (l.drop i) = some m ∧
          ∀ j, j < i → tryCodeAt (l.drop j) = none := by
  intro l
  induction l with
  | nil =>
    intro m
    constructor
    · intro h; simp [findCode] at h
    · rintro ⟨i, h1, _⟩
      rw [List.drop_nil] at h1
      rw [tryCodeAt_nil] at h1
      cases h1
  | cons c cs ih =>
    intro m
    constructor
    · intro h
      simp only [findCode] at h
      cases htry : tryCodeAt (c :: cs) with
      | some m0 =>
        rw [htry] at h
        simp only [Option.some.injEq] at h
        exact ⟨0, by rw [List.drop_zero, htry, h], fun j hj => absurd hj (by omega)⟩
      | none =>
        rw [htry] at h
        obtain ⟨i, h1, h2⟩ := ih.mp h
        refine ⟨i + 1, by simpa using h1, fun j hj => ?_⟩
        match j with
        | 0 => simpa using htry
        | j + 1 => simpa using h2 j (by omega)
    · rintro ⟨i, h1, h2⟩
      simp only [findCode]
      cases htry : tryCodeAt (c :: cs) with
      | some m0 =>
        match i with
        | 0 =>
          rw [List.drop_zero] at h1
          rw [htry] at h1
          exact h1
        | i + 1 =>
          have h0 := h2 0 (by omega)
          rw [List.drop_zero] at h0
          rw [h0] at htry
          cases htry
      | none =>
        match i with
        | 0 =>
          rw [List.drop_zero, htry] at h1
          cases h1
        | i + 1 =>
          exact ih.mpr ⟨i, by simpa using h1, fun j hj => by
            simpa using h2 (j + 1) (by omega)⟩

/-- C3: before the code search, `extract` strips bracketed groups,
parenthesized groups and separator+`com`/`net`/`org`/`xyz` tokens from the
base name (witnessed on concrete inputs), and the search is leftmost-first:
`findCode` returns the match at the first position where the pattern
matches.  In particular
`extract("[vendor-com]ABC-123(2020).mp4") = "ABC-123.mp4"`. -/
theorem C3_clean_then_leftmost :
    extractS "[vendor-com]ABC-123(2020).mp4" = "ABC-123.mp4" ∧
    cleanNoise ("[vendor-com]ABC-123(2020).mp4".data) = "ABC-123.mp4".data ∧
    cleanNoise ("x-comAB.mkv".data) = "x.mkv".data ∧
    extractS "aa-11-bb-22.mp4" = "AA-11.mp4" ∧
    (∀ (l m : List Char), findCode l = some m →
      ∃ i, tryCodeAt (l.drop i) = some m ∧
        ∀ j, j < i → tryCodeAt (l.drop j) = none) := by
  refine ⟨by decide, by decide, by decide, by decide, ?_⟩
  intro l m h
  exact findCode_eq_some_iff.mp h

theorem C3_clean_then_leftmost_witness :
    ∃ i, tryCodeAt (("!ab-12".data).drop i) = some ("ab-12".data) ∧
      ∀ j, j < i → tryCodeAt (("!ab-12".data).drop j) = none :=
  C3_clean_then_leftmost.2.2.2.2 ("!ab-12".data) ("ab-12".data) (by decide)

theorem trySuffix_shape (l : List Char) : SuffixShape (trySuffix l) := by
  unfold SuffixShape
  match l with
  | [] => exact Or.inl rfl
  | [d] => exact Or.inl rfl
  | d :: c1 :: rest =>
    simp only [trySuffix]
    by_cases hd : d = '-'
    · rw [if_pos hd]
      by_cases h1 : c1 = 'c' ∨ c1 = 'C'
      · rw [if_pos h1]; exact Or.inr (Or.inl ⟨c1, h1, rfl⟩)
      · rw [if_neg h1]
        by_cases h2 : c1 = 'u' ∨ c1 = 'U'
        · rw [if_pos h2]
          match rest with
          | [] => exact Or.inl rfl
          | c2 :: rest2 =>
            dsimp only
            by_cases h3 : c2 = 'c' ∨ c2 = 'C'
            · rw [if_pos h3]; exact Or.inr (Or.inr ⟨c1, c2, h2, h3, rfl⟩)
            · rw [if_neg h3]; exact Or.inl rfl
        · rw [if_neg h2]; exact Or.inl rfl
    · rw [if_neg hd]; exact Or.inl rfl

theorem tryCodeAt_shape {l m : List Char} (h : tryCodeAt l = some m) :
    CodeShape m := by
  simp only [tryCodeAt] at h
  split at h
  · cases h
  · rename_i hne
    split at h
    · rename_i d rest hdrop
      split at h
      · rename_i hd
        split at h
        · cases h
        · rename_i hds
          simp only [Option.some.injEq] at h
          subst hd
          refine ⟨l.takeWhile isAlphaCh, rest.takeWhile isDigitCh,
            trySuffix (rest.dropWhile isDigitCh), h.symm, ?_, ?_, ?_, ?_,
            trySuffix_shape _⟩
          · simpa [List.isEmpty_iff] using hne
          · exact List.all_eq_true.mpr fun x hx => List.mem_takeWhile_imp hx
          · simpa [List.isEmpty_iff] using hds
          · exact List.all_eq_true.mpr fun x hx => List.mem_takeWhile_imp hx
      · cases h
    · cases h

theorem findCode_shape : ∀ {l m : List Char}, findCode l = some m → CodeShape m := by
  intro l
  induction l with
  | nil => intro m h; simp [findCode] at h
  | cons c cs ih =>
    intro m h
    simp only [findCode] at h
    cases htry : tryCodeAt (c :: cs) with
    | some m0 =>
      rw [htry] at h
      simp only [Option.some.injEq] at h
      exact h ▸ tryCodeAt_shape htry
    | none =>
      rw [htry] at h
      exact ih h

theorem upStr_digits {D : List Char} (h : D.all isDigitCh = true) :
    upStr D = D := by
  induction D with
  | nil => rfl
  | cons c cs ih =>
    rw [List.all_cons, Bool.and_eq_true] at h
    show upCh c :: cs.map upCh = c :: cs
    rw [upCh_of_digit h.1]
    exact congrArg _ (ih h.2)

theorem upStr_suffixShape {S : List Char} (h : SuffixShape S) :
    upStr S = [] ∨ upStr S = ['-', 'C'] ∨ upStr S = ['-', 'U', 'C'] := by
  rcases h with h | ⟨c1, h1, h⟩ | ⟨c1, c2, h1, h2, h⟩
  · subst h; exact Or.inl rfl
  · subst h
    rcases h1 with h1 | h1 <;> subst h1 <;> exact Or.inr (Or.inl (by decide))
  · subst h
    rcases h1 with h1 | h1 <;> rcases h2 with h2 | h2 <;> subst h1 <;> subst h2 <;>
      exact Or.inr (Or.inr (by decide))

theorem upStr_all_upper {L : List Char} (h : L.all isAlphaCh = true) :
    ∀ c ∈ upStr L, isUpperCh c = true := by
  intro c hc
  obtain ⟨d, hd, hdc⟩ := List.mem_map.mp hc
  exact hdc ▸ isUpperCh_upCh (List.all_eq_true.mp h d hd)

theorem isUpperCode_upStr {L D S : List Char}
    (hL : L ≠ []) (hLa : L.all isAlphaCh = true)
    (hD : D ≠ []) (hDd : D.all isDigitCh = true)
    (hS : SuffixShape S) :
    isUpperCode (upStr (L ++ '-' :: (D ++ S))) = true := by
  have hupS := upStr_suffixShape hS
  have hw : upStr (L ++ '-' :: (D ++ S)) =
      upStr L ++ '-' :: (D ++ upStr S) := by
    simp only [upStr, List.map_append, List.map_cons]
    rw [show upCh '-' = '-' from by decide]
    rw [show List.map upCh D = upStr D from rfl, upStr_digits hDd]
  rw [hw]
  have hLup := upStr_all_upper hLa
  have htake : (upStr L ++ '-' :: (D ++ upStr S)).takeWhile isUpperCh = upStr L := by
    rw [List.takeWhile_append_of_pos hLup, List.takeWhile_cons,
      show isUpperCh '-' = false from by decide]
    simp
  have hdrop : (upStr L ++ '-' :: (D ++ upStr S)).dropWhile isUpperCh
      = '-' :: (D ++ upStr S) := by
    rw [List.dropWhile_append_of_pos hLup, List.dropWhile_cons,
      show isUpperCh '-' = false from by decide]
    simp
  have hLne : upStr L ≠ [] := by
    intro hc
    exact hL (List.map_eq_nil_iff.mp hc)
  simp only [isUpperCode, htake, hdrop]
  rw [if_neg (by simpa [List.isEmpty_iff] using hLne)]
  simp only [if_true]
  have htakeD : (D ++ upStr S).takeWhile isDigitCh = D := by
    rw [List.takeWhile_append_of_pos (fun a ha => List.all_eq_true.mp hDd a ha)]
    rcases hupS with h | h | h <;> rw [h] <;>
      simp [show isDigitCh '-' = false from by decide]
  have hdropD : (D ++ upStr S).dropWhile isDigitCh = upStr S := by
    rw [List.dropWhile_append_of_pos (fun a ha => List.all_eq_true.mp hDd a ha)]
    rcases hupS with h | h | h <;> rw [h] <;>
      simp [show isDigitCh '-' = false from by decide]
  rw [htakeD, hdropD]
  rw [if_neg (by simpa [List.isEmpty_iff] using hD)]
  simp only [decide_eq_true_eq]
  rcases hupS with h | h | h <;> rw [h] <;> simp

/-- C1 (counterexample to the claim as stated): the filename
`"[abc-123].mp4"` contains the letters-hyphen-digits code `abc-123`
(wrapped in a bracket noise token), yet `extract` does not return the
uppercased code with the extension — the noise stripping removes the whole
bracket group, the search fails, and the original base name is returned. -/
theorem C1_noise_wrapped_code_counterexample :
    tryCodeAt ((basePath ("[abc-123].mp4".data)).drop 1) = some ("abc-123".data) ∧
    extractS "[abc-123].mp4" = "[abc-123].mp4" ∧
    extractS "[abc-123].mp4" ≠ "ABC-123.mp4" := by
  refine ⟨by decide, by decide, by decide⟩

/-- C1 (amended): for every filename whose noise-cleaned base name contains
the letters-hyphen-digits pattern, `extract` returns the (leftmost, possibly
`-c`/`-uc`-suffixed) match uppercased, followed by the original base name's
extension with its case preserved; the code portion satisfies the uppercase
`LETTERS-DIGITS[-C|-UC]` invariant. -/
theorem C1_extract_uppercased_code :
    ∀ (f m : List Char), findCode (cleanNoise (basePath f)) = some m →
      extractMovieCode f = upStr m ++ extPath (basePath f) ∧
      isUpperCode (upStr m) = true := by
  intro f m h
  constructor
  · unfold extractMovieCode extractBase
    rw [h]
  · obtain ⟨L, D, S, hm, hL, hLa, hD, hDd, hS⟩ := findCode_shape h
    rw [hm]
    exact isUpperCode_upStr hL hLa hD hDd hS

theorem C1_extract_uppercased_code_witness :
    extractMovieCode ("abc-123-uc.Mp4".data) =
      upStr ("abc-123-uc".data) ++ extPath (basePath ("abc-123-uc.Mp4".data)) ∧
    isUpperCode (upStr ("abc-123-uc".data)) = true :=
  C1_extract_uppercased_code ("abc-123-uc.Mp4".data) ("abc-123-uc".data)
    (by decide)

/-! ## Structure of `basePath` and `extPath` outputs -/

theorem lastElem_noslash (p : List Char) : ∀ c ∈ lastElem p, c ≠ '/' := by
  intro c hc
  rw [lastElem, List.mem_reverse] at hc
  simpa using List.mem_takeWhile_imp hc

theorem basePath_cases (p : List Char) :
    basePath p = ['/'] ∨ (basePath p ≠ [] ∧ ∀ c ∈ basePath p, c ≠ '/') := by
  rw [basePath]
  by_cases hp : p.isEmpty
  · rw [if_pos hp]
    exact Or.inr ⟨by simp, by intro c hc; simp at hc; simp [hc]⟩
  · rw [if_neg hp]
    by_cases hre : (lastElem p).isEmpty
    · rw [if_pos hre]; exact Or.inl rfl
    · rw [if_neg hre]
      exact Or.inr ⟨by simpa [List.isEmpty_iff] using hre, lastElem_noslash p⟩

theorem basePath_of_noslash {l : List Char} (hne : l ≠ [])
    (hs : ∀ c ∈ l, c ≠ '/') : basePath l = l := by
  have hle : lastElem l = l := by
    rw [lastElem]
    have hd : l.reverse.dropWhile (fun c => c = '/') = l.reverse := by
      cases hrev : l.reverse with
      | nil => rfl
      | cons c cs =>
        rw [List.dropWhile_cons]
        have hcl : c ∈ l := by
          rw [← List.mem_reverse, hrev]; exact List.mem_cons_self ..
        rw [if_neg (by simpa using hs c hcl)]
    have ht : l.reverse.takeWhile (fun c => c ≠ '/') = l.reverse := by
      rw [List.takeWhile_eq_self_iff]
      intro c hc
      rw [List.mem_reverse] at hc
      simpa using hs c hc
    rw [hd, ht, List.reverse_reverse]
  rw [basePath, if_neg (by simpa [List.isEmpty_iff] using hne), hle,
    if_neg (by simpa [List.isEmpty_iff] using hne)]

theorem basePath_idem (p : List Char) : basePath (basePath p) = basePath p := by
  rcases basePath_cases p with h | ⟨h1, h2⟩
  · rw [h]; decide
  · exact basePath_of_noslash h1 h2

theorem extPath_shape (p : List Char) :
    extPath p = [] ∨
      ∃ t, extPath p = '.' :: t ∧ ∀ c ∈ t, c ≠ '.' ∧ c ≠ '/' := by
  rw [extPath]
  by_cases hlen : (extPreRev p).length = (extTailRev p).length
  · rw [if_pos hlen]; exact Or.inl rfl
  · rw [if_neg hlen]
    refine Or.inr ⟨(extPreRev p).reverse, rfl, ?_⟩
    intro c hc
    rw [List.mem_reverse] at hc
    constructor
    · rw [extPreRev] at hc
      simpa using List.mem_takeWhile_imp hc
    · have hc2 : c ∈ extTailRev p := by
        rw [extPreRev] at hc
        exact ( List.takeWhile_prefix _).sublist.subset hc
      rw [extTailRev] at hc2
      simpa using List.mem_takeWhile_imp hc2

/-- Go `filepath.Ext` of a string made of a dot-free, slash-free block followed
by an extension-shaped suffix is exactly that suffix. -/
theorem extPath_append_code {A ext : List Char}
    (hA : ∀ c ∈ A, c ≠ '.' ∧ c ≠ '/')
    (hext : ext = [] ∨ ∃ t, ext = '.' :: t ∧ ∀ c ∈ t, c ≠ '.' ∧ c ≠ '/') :
    extPath (A ++ ext) = ext := by
  rcases hext with hext | ⟨t, hext, ht⟩
  · subst hext
    rw [List.append_nil, extPath]
    have h1 : extTailRev A = A.reverse := by
      rw [extTailRev, List.takeWhile_eq_self_iff]
      intro c hc
      rw [List.mem_reverse] at hc
      simpa using (hA c hc).2
    have h2 : extPreRev A = A.reverse := by
      rw [extPreRev, h1, List.takeWhile_eq_self_iff]
      intro c hc
      rw [List.mem_reverse] at hc
      simpa using (hA c hc).1
    rw [if_pos (by rw [h1, h2])]
  · subst hext
    rw [extPath]
    have hrev : (A ++ '.' :: t).reverse = t.reverse ++ '.' :: A.reverse := by
      rw [List.reverse_append, List.reverse_cons, List.append_assoc]
      rfl
    have h1 : extTailRev (A ++ '.' :: t) = t.reverse ++ '.' :: A.reverse := by
      rw [extTailRev, hrev, List.takeWhile_eq_self_iff]
      intro c hc
      rcases List.mem_append.mp hc with hc | hc
      · rw [List.mem_reverse] at hc
        simpa using (ht c hc).2
      · rcases List.mem_cons.mp hc with hc | hc
        · subst hc; decide
        · rw [List.mem_reverse] at hc
          simpa using (hA c hc).2
    have h2 : extPreRev (A ++ '.' :: t) = t.reverse := by
      rw [extPreRev, h1, List.takeWhile_append_of_pos (by
        intro c hc
        rw [List.mem_reverse] at hc
        simpa using (ht c hc).1), List.takeWhile_cons]
      simp
    rw [h2, h1]
    rw [if_neg (by simp)]
    rw [List.reverse_reverse]

/-! ## The uppercased code survives a second cleaning pass -/

theorem cleanNoise_nil : cleanNoise [] = [] := rfl

/-- Characters that cannot start any alternative of the noise regex. -/
theorem cleanNoise_append_safe :
    ∀ {A r : List Char},
      (∀ c ∈ A, c ≠ '[' ∧ c ≠ '(' ∧ c ≠ '-' ∧ c ≠ '_') →
      cleanNoise (A ++ r) = A ++ cleanNoise r := by
  intro A
  induction A with
  | nil => intro r _; rfl
  | cons c cs ih =>
    intro r hA
    have hc := hA c (List.mem_cons_self ..)
    rw [List.cons_append,
      cleanNoise_cons_of_none (tryNoiseAt_none_plain hc.1 hc.2.1 hc.2.2.1 hc.2.2.2),
      ih (fun d hd => hA d (List.mem_cons_of_mem _ hd)), List.cons_append]

/-- A separator followed by a character that starts none of
`com`/`net`/`org`/`xyz` is not deleted. -/
theorem cleanNoise_cons_sep {d : Char} {rest : List Char}
    (hd : d ≠ 'c' ∧ d ≠ 'n' ∧ d ≠ 'o' ∧ d ≠ 'x') :
    cleanNoise ('-' :: d :: rest) = '-' :: cleanNoise (d :: rest) :=
  cleanNoise_cons_of_none (tryNoiseAt_none_sep (Or.inl rfl)
    (matchUrlTail_none_head hd.1 hd.2.1 hd.2.2.1 hd.2.2.2))

theorem upper_safe {c : Char} (h : isUpperCh c = true) :
    c ≠ '[' ∧ c ≠ '(' ∧ c ≠ '-' ∧ c ≠ '_' :=
  ⟨(isUpperCh_ne h).1, (isUpperCh_ne h).2.1, (isUpperCh_ne h).2.2.1,
    (isUpperCh_ne h).2.2.2.1⟩

theorem digit_safe {c : Char} (h : isDigitCh c = true) :
    c ≠ '[' ∧ c ≠ '(' ∧ c ≠ '-' ∧ c ≠ '_' :=
  ⟨(isDigitCh_ne h).1, (isDigitCh_ne h).2.1, (isDigitCh_ne h).2.2.1,
    (isDigitCh_ne h).2.2.2.1⟩

/-- The noise regex finds nothing inside an uppercased code match: cleaning
`UPPER-DIGITS[-C|-UC] ++ ec` cleans only `ec`. -/
theorem cleanNoise_code {A D upS : List Char}
    (hA : ∀ c ∈ A, isUpperCh c = true)
    (hD : D ≠ []) (hDd : ∀ c ∈ D, isDigitCh c = true)
    (hS : upS = [] ∨ upS = ['-', 'C'] ∨ upS = ['-', 'U', 'C'])
    (ec : List Char) :
    cleanNoise ((A ++ '-' :: (D ++ upS)) ++ ec) =
      (A ++ '-' :: (D ++ upS)) ++ cleanNoise ec := by
  match D, hD with
  | d :: D', _ =>
    have hdd := hDd d (List.mem_cons_self ..)
    have h1 : (A ++ '-' :: (d :: D' ++ upS)) ++ ec
        = A ++ '-' :: d :: (D' ++ (upS ++ ec)) := by
      simp [List.append_assoc]
    rw [h1, cleanNoise_append_safe (fun c hc => upper_safe (hA c hc)),
      cleanNoise_cons_sep ⟨(isDigitCh_ne hdd).2.2.2.2.2.2.1,
        (isDigitCh_ne hdd).2.2.2.2.2.2.2.1,
        (isDigitCh_ne hdd).2.2.2.2.2.2.2.2.1,
        (isDigitCh_ne hdd).2.2.2.2.2.2.2.2.2⟩]
    have h2 : cleanNoise (d :: (D' ++ (upS ++ ec)))
        = (d :: D') ++ cleanNoise (upS ++ ec) := by
      rw [show d :: (D' ++ (upS ++ ec)) = (d :: D') ++ (upS ++ ec) from rfl]
      exact cleanNoise_append_safe
        (fun c hc => digit_safe (hDd c hc))
    rw [h2]
    have h3 : cleanNoise (upS ++ ec) = upS ++ cleanNoise ec := by
      rcases hS with h | h | h <;> subst h
      · rfl
      · rw [List.cons_append, List.cons_append, List.nil_append,
          cleanNoise_cons_sep (by refine ⟨?_, ?_, ?_, ?_⟩ <;> decide)]
        rw [show ('C' :: ec) = ['C'] ++ ec from rfl,
          cleanNoise_append_safe (by intro c hc; simp at hc; subst hc
                                     refine ⟨?_, ?_, ?_, ?_⟩ <;> decide)]
        rfl
      · rw [List.cons_append, List.cons_append, List.cons_append,
          List.nil_append,
          cleanNoise_cons_sep (by refine ⟨?_, ?_, ?_, ?_⟩ <;> decide)]
        rw [show ('U' :: 'C' :: ec) = ['U', 'C'] ++ ec from rfl,
          cleanNoise_append_safe (by intro c hc; simp at hc
                                     rcases hc with hc | hc <;> subst hc <;>
                                       (refine ⟨?_, ?_, ?_, ?_⟩ <;> decide))]
        rfl
    rw [h3]
    simp [List.append_assoc]

/-! ## The code regex re-finds the uppercased code -/

theorem isAlphaCh_of_upper {c : Char} (h : isUpperCh c = true) :
    isAlphaCh c = true := by
  rw [isAlphaCh, h, Bool.or_true]

/-- Evaluation of `tryCodeAt` at the start of an uppercased code match
followed by a (cleaned) extension starting with a dot. -/
theorem tryCodeAt_code {A D upS ec : List Char}
    (hAne : A ≠ []) (hA : ∀ c ∈ A, isUpperCh c = true)
    (hD : D ≠ []) (hDd : ∀ c ∈ D, isDigitCh c = true)
    (hS : upS = [] ∨ upS = ['-', 'C'] ∨ upS = ['-', 'U', 'C'])
    (hec : ec = [] ∨ ∃ t, ec = '.' :: t) :
    tryCodeAt ((A ++ '-' :: (D ++ upS)) ++ ec)
      = some (A ++ '-' :: (D ++ upS)) := by
  have h1 : (A ++ '-' :: (D ++ upS)) ++ ec = A ++ '-' :: (D ++ (upS ++ ec)) := by
    simp [List.append_assoc]
  rw [h1, tryCodeAt]
  have htke : (A ++ '-' :: (D ++ (upS ++ ec))).takeWhile isAlphaCh = A := by
    rw [List.takeWhile_append_of_pos (fun c hc => isAlphaCh_of_upper (hA c hc)),
      List.takeWhile_cons, show isAlphaCh '-' = false from by decide]
    simp
  have hdrp : (A ++ '-' :: (D ++ (upS ++ ec))).dropWhile isAlphaCh
      = '-' :: (D ++ (upS ++ ec)) := by
    rw [List.dropWhile_append_of_pos (fun c hc => isAlphaCh_of_upper (hA c hc)),
      List.dropWhile_cons, show isAlphaCh '-' = false from by decide]
    simp
  rw [htke, hdrp]
  rw [if_neg (by simpa [List.isEmpty_iff] using hAne)]
  dsimp only
  rw [if_pos rfl]
  have hsuffhead : (upS ++ ec).takeWhile isDigitCh = [] ∧
      (upS ++ ec).dropWhile isDigitCh = upS ++ ec := by
    rcases hS with h | h | h <;> subst h
    · rcases hec with h | ⟨t, h⟩ <;> subst h
      · exact ⟨rfl, rfl⟩
      · constructor
        · rw [List.nil_append, List.takeWhile_cons,
            show isDigitCh '.' = false from by decide]
          simp
        · rw [List.nil_append, List.dropWhile_cons,
            show isDigitCh '.' = false from by decide]
          simp
    · constructor
      · rw [List.cons_append, List.takeWhile_cons,
          show isDigitCh '-' = false from by decide]
        simp
      · rw [List.cons_append, List.dropWhile_cons,
          show isDigitCh '-' = false from by decide]
        simp
    · constructor
      · rw [List.cons_append, List.takeWhile_cons,
          show isDigitCh '-' = false from by decide]
        simp
      · rw [List.cons_append, List.dropWhile_cons,
          show isDigitCh '-' = false from by decide]
        simp
  have htkD : (D ++ (upS ++ ec)).takeWhile isDigitCh = D := by
    rw [List.takeWhile_append_of_pos hDd, hsuffhead.1, List.append_nil]
  have hdrD : (D ++ (upS ++ ec)).dropWhile isDigitCh = upS ++ ec := by
    rw [List.dropWhile_append_of_pos hDd, hsuffhead.2]
  rw [htkD, hdrD]
  rw [if_neg (by simpa [List.isEmpty_iff] using hD)]
  have hts : trySuffix (upS ++ ec) = upS := by
    rcases hS with h | h | h <;> subst h
    · rcases hec with h | ⟨t, h⟩ <;> subst h
      · rfl
      · match t with
        | [] => rfl
        | c1 :: t' => rfl
    · rfl
    · rfl
  rw [hts]

theorem findCode_cons_of_some {l m : List Char} (hne : l ≠ [])
    (h : tryCodeAt l = some m) : findCode l = some m := by
  match l, hne with
  | c :: cs, _ =>
    simp only [findCode]
    rw [h]

/-! ## Idempotence of `extractMovieCode` -/

theorem upStr_code_decomp {L D S : List Char} (hDd : D.all isDigitCh = true) :
    upStr (L ++ '-' :: (D ++ S)) = upStr L ++ '-' :: (D ++ upStr S) := by
  simp only [upStr, List.map_append, List.map_cons]
  rw [show upCh '-' = '-' from by decide]
  rw [show List.map upCh D = upStr D from rfl, upStr_digits hDd]

theorem upStr_idem (l : List Char) : upStr (upStr l) = upStr l := by
  induction l with
  | nil => rfl
  | cons c cs ih =>
    show upCh (upCh c) :: upStr (upStr cs) = upCh c :: upStr cs
    rw [upCh_idem, ih]

/-- The characters of an uppercased code match: uppercase letters, digits,
and `'-'`; in particular neither `'.'` nor `'/'`. -/
theorem upCode_chars {L D S : List Char}
    (hLa : L.all isAlphaCh = true) (hDd : D.all isDigitCh = true)
    (hS : upStr S = [] ∨ upStr S = ['-', 'C'] ∨ upStr S = ['-', 'U', 'C']) :
    ∀ c ∈ upStr L ++ '-' :: (D ++ upStr S), c ≠ '.' ∧ c ≠ '/' := by
  intro c hc
  rcases List.mem_append.mp hc with hc | hc
  · have := isUpperCh_ne (upStr_all_upper hLa c hc)
    exact ⟨this.2.2.2.2.1, this.2.2.2.2.2.1⟩
  · rcases List.mem_cons.mp hc with hc | hc
    · subst hc; exact ⟨by decide, by decide⟩
    · rcases List.mem_append.mp hc with hc | hc
      · have := isDigitCh_ne (List.all_eq_true.mp hDd c hc)
        exact ⟨this.2.2.2.2.1, this.2.2.2.2.2.1⟩
      · rcases hS with h | h | h <;> rw [h] at hc <;> simp at hc
        · rcases hc with hc | hc <;> subst hc <;> exact ⟨by decide, by decide⟩
        · rcases hc with hc | hc | hc <;> subst hc <;>
            exact ⟨by decide, by decide⟩

/-- Core lemma: `extractBase` is the identity on any output of the match
branch of `extractMovieCode`. -/
theorem extractBase_fixes_output {m ext : List Char}
    (hm : CodeShape m)
    (hext : ext = [] ∨ ∃ t, ext = '.' :: t ∧ ∀ c ∈ t, c ≠ '.' ∧ c ≠ '/') :
    basePath (upStr m ++ ext) = upStr m ++ ext ∧
    extractBase (upStr m ++ ext) = upStr m ++ ext := by
  obtain ⟨L, D, S, hmeq, hL, hLa, hD, hDd, hS⟩ := hm
  subst hmeq
  rw [upStr_code_decomp hDd]
  have hupS := upStr_suffixShape hS
  have hchars := upCode_chars hLa hDd hupS
  have hAne : upStr L ≠ [] := fun hc => hL (List.map_eq_nil_iff.mp hc)
  have hA := upStr_all_upper hLa
  have hDd' : ∀ c ∈ D, isDigitCh c = true := fun c hc => List.all_eq_true.mp hDd c hc
  -- the concatenation is nonempty and slash-free, so `filepath.Base` fixes it
  have hbase : basePath ((upStr L ++ '-' :: (D ++ upStr S)) ++ ext)
      = (upStr L ++ '-' :: (D ++ upStr S)) ++ ext := by
    apply basePath_of_noslash (by simp [hAne])
    intro c hc
    rcases List.mem_append.mp hc with hc | hc
    · exact (hchars c hc).2
    · rcases hext with h | ⟨t, h, ht⟩ <;> subst h
      · simp at hc
      · rcases List.mem_cons.mp hc with hc | hc
        · subst hc; decide
        · exact (ht c hc).2
  refine ⟨hbase, ?_⟩
  rw [extractBase]
  have hclean : cleanNoise ((upStr L ++ '-' :: (D ++ upStr S)) ++ ext)
      = (upStr L ++ '-' :: (D ++ upStr S)) ++ cleanNoise ext := by
    exact cleanNoise_code hA hD hDd' hupS ext
  have hcleanext : cleanNoise ext = [] ∨ ∃ t, cleanNoise ext = '.' :: t := by
    rcases hext with h | ⟨t, h, _⟩ <;> subst h
    · exact Or.inl rfl
    · refine Or.inr ⟨cleanNoise t, ?_⟩
      exact cleanNoise_cons_of_none (tryNoiseAt_none_plain
        (by decide) (by decide) (by decide) (by decide))
  have hfind : findCode (cleanNoise ((upStr L ++ '-' :: (D ++ upStr S)) ++ ext))
      = some (upStr L ++ '-' :: (D ++ upStr S)) := by
    rw [hclean]
    exact findCode_cons_of_some (by simp [hAne])
      (tryCodeAt_code hAne hA hD hDd' hupS hcleanext)
  have hup2 : upStr (upStr L ++ '-' :: (D ++ upStr S)) =
      upStr L ++ '-' :: (D ++ upStr S) := by
    conv_lhs => rw [← upStr_code_decomp hDd, upStr_idem]
    exact upStr_code_decomp hDd
  have hextU : extPath ((upStr L ++ '-' :: (D ++ upStr S)) ++ ext) = ext :=
    extPath_append_code hchars hext
  rw [hfind]
  dsimp only
  rw [hup2, hextU]

/-- The extractor `extractMovieCode` is idempotent: its output is a fixed point.  This is
the heart of the rename pass being a no-op the second time around. -/
theorem extractMovieCode_idem (f : List Char) :
    extractMovieCode (extractMovieCode f) = extractMovieCode f := by
  cases hfind : findCode (cleanNoise (basePath f)) with
  | none =>
    have h1 : extractMovieCode f = basePath f := by
      rw [extractMovieCode, extractBase, hfind]
    rw [h1, extractMovieCode, basePath_idem, extractBase, hfind]
  | some m =>
    have h1 : extractMovieCode f = upStr m ++ extPath (basePath f) := by
      rw [extractMovieCode, extractBase, hfind]
    have hshape := findCode_shape hfind
    have hfix := extractBase_fixes_output hshape (extPath_shape (basePath f))
    rw [h1, extractMovieCode, hfix.1, hfix.2, ← h1]

/-! ## C9 — result is a bare file name with the base name's extension -/

/-- C9 (counterexample to the claim as stated): for the input `"/"` (a path
consisting only of directory separators), `filepath.Base` returns `"/"`, no
code is found, and `extract` returns `"/"` — which consists of a directory
separator, so the result is not a bare file name. -/
theorem C9_separator_counterexample :
    extractS "/" = "/" ∧ '/' ∈ extractMovieCode ("/".data) := by
  refine ⟨by decide, by decide⟩

/-- C9 (amended): for every input whose base name is not `"/"` (i.e. the
input is not entirely separators), the result of `extract` contains no
directory separator; and for **every** input — match branch, fallback
branch, full paths included — the extension (last-dot suffix) of the result
equals the extension of the input's base name. -/
theorem C9_bare_name_ext_preserved :
    (∀ f : List Char, basePath f ≠ ['/'] →
      ∀ c ∈ extractMovieCode f, c ≠ '/') ∧
    (∀ f : List Char, extPath (extractMovieCode f) = extPath (basePath f)) := by
  constructor
  · intro f hbase c hc
    cases hfind : findCode (cleanNoise (basePath f)) with
    | none =>
      rw [extractMovieCode, extractBase, hfind] at hc
      rcases basePath_cases f with h | ⟨_, h2⟩
      · exact absurd h hbase
      · exact h2 c hc
    | some m =>
      rw [extractMovieCode, extractBase, hfind] at hc
      dsimp only at hc
      obtain ⟨L, D, S, hmeq, hL, hLa, hD, hDd, hS⟩ := findCode_shape hfind
      subst hmeq
      rw [upStr_code_decomp hDd] at hc
      rcases List.mem_append.mp hc with hc | hc
      · exact (upCode_chars hLa hDd (upStr_suffixShape hS) c hc).2
      · rcases extPath_shape (basePath f) with h | ⟨t, h, ht⟩ <;> rw [h] at hc
        · simp at hc
        · rcases List.mem_cons.mp hc with hc | hc
          · subst hc; decide
          · exact (ht c hc).2
  · intro f
    cases hfind : findCode (cleanNoise (basePath f)) with
    | none => rw [extractMovieCode, extractBase, hfind]
    | some m =>
      rw [extractMovieCode, extractBase, hfind]
      dsimp only
      obtain ⟨L, D, S, hmeq, hL, hLa, hD, hDd, hS⟩ := findCode_shape hfind
      subst hmeq
      rw [upStr_code_decomp hDd]
      exact extPath_append_code (upCode_chars hLa hDd (upStr_suffixShape hS))
        (extPath_shape (basePath f))

theorem C9_bare_name_ext_preserved_witness :
    basePath ("dir/sub/abc-12-c.avi".data) ≠ ['/'] ∧
    (∀ c ∈ extractMovieCode ("dir/sub/abc-12-c.avi".data), c ≠ '/') ∧
    extPath (extractMovieCode ("dir/sub/abc-12-c.avi".data))
      = extPath (basePath ("dir/sub/abc-12-c.avi".data)) :=
  ⟨by decide,
   C9_bare_name_ext_preserved.1 ("dir/sub/abc-12-c.avi".data) (by decide),
   C9_bare_name_ext_preserved.2 ("dir/sub/abc-12-c.avi".data)⟩

theorem splitSep_ne_nil (l : List Char) : splitSep l ≠ [] := by
  cases l with
  | nil => simp [splitSep]
  | cons c cs =>
    rw [splitSep]
    by_cases hc : c = '/'
    · simp [hc]
    · rw [if_neg hc]
      cases h : splitSep cs with
      | nil => simp
      | cons p ps => simp

theorem splitSep_append_sep (a b : List Char) :
    splitSep (a ++ '/' :: b) = splitSep a ++ splitSep b := by
  induction a with
  | nil => simp [splitSep]
  | cons c cs ih =>
    by_cases hc : c = '/'
    · subst hc
      rw [List.cons_append]
      simp only [splitSep]
      rw [ih]
      simp
    · rw [List.cons_append]
      simp only [splitSep, if_neg hc]
      rw [ih]
      cases hsp : splitSep cs with
      | nil => exact absurd hsp (splitSep_ne_nil cs)
      | cons p ps => rfl

theorem splitSep_noslash {m : List Char} (hm : ∀ c ∈ m, c ≠ '/') :
    splitSep m = [m] := by
  induction m with
  | nil => rfl
  | cons c cs ih =>
    rw [splitSep, if_neg (hm c (List.mem_cons_self ..)),
      ih (fun d hd => hm d (List.mem_cons_of_mem _ hd))]

theorem splitSep_parts_noslash (l : List Char) :
    ∀ m ∈ splitSep l, ∀ c ∈ m, c ≠ '/' := by
  induction l with
  | nil => intro m hm c hc; simp [splitSep] at hm; subst hm; simp at hc
  | cons x xs ih =>
    intro m hm c hc
    rw [splitSep] at hm
    by_cases hx : x = '/'
    · rw [if_pos hx] at hm
      rcases List.mem_cons.mp hm with h | h
      · subst h; simp at hc
      · exact ih m h c hc
    · rw [if_neg hx] at hm
      cases hsp : splitSep xs with
      | nil => exact absurd hsp (splitSep_ne_nil xs)
      | cons p ps =>
        rw [hsp] at hm
        rcases List.mem_cons.mp hm with h | h
        · subst h
          rcases List.mem_cons.mp hc with h | h
          · subst h; exact hx
          · exact ih p (by rw [hsp]; exact List.mem_cons_self ..) c h
        · exact ih m (by rw [hsp]; exact List.mem_cons_of_mem _ h) c hc

theorem cleanPush_normal {rooted : Bool} {S : List (List Char)}
    {m : List Char} (hm : Norm m) : cleanPush rooted S m = m :: S := by
  rw [cleanPush.eq_def, if_neg (by push_neg; exact ⟨hm.1, hm.2.1⟩),
    if_neg hm.2.2.1]

theorem stackOK_nil (rooted : Bool) : StackOK rooted [] :=
  ⟨[], [], rfl, by simp, by simp, fun _ => rfl⟩

theorem cleanPush_stackOK {rooted : Bool} {S : List (List Char)}
    {comp : List Char} (hS : StackOK rooted S) (hc : ∀ c ∈ comp, c ≠ '/') :
    StackOK rooted (cleanPush rooted S comp) := by
  obtain ⟨ns, ds, hSeq, hns, hds, hroot⟩ := hS
  rw [cleanPush.eq_def]
  by_cases h1 : comp = [] ∨ comp = ['.']
  · rw [if_pos h1]; exact ⟨ns, ds, hSeq, hns, hds, hroot⟩
  · rw [if_neg h1]
    by_cases h2 : comp = ['.', '.']
    · rw [if_pos h2]
      subst hSeq
      match ns with
      | [] =>
        match hdsm : ds with
        | [] =>
          cases rooted with
          | true =>
            show StackOK true []
            exact ⟨[], [], by simp, by simp, by simp, fun _ => rfl⟩
          | false =>
            show StackOK false [['.', '.']]
            exact ⟨[], [['.', '.']], by simp, by simp, by simp, by simp⟩
        | top :: rest =>
          rw [List.nil_append]
          have htop : top = ['.', '.'] := hds top (List.mem_cons_self ..)
          dsimp only
          rw [if_pos htop]
          refine ⟨[], comp :: top :: rest, rfl, by simp, ?_, ?_⟩
          · intro x hx
            rcases List.mem_cons.mp hx with h | h
            · subst h; exact h2
            · exact hds x h
          · intro hr
            exact absurd (hroot hr) (by simp)
      | top :: ns' =>
        rw [List.cons_append]
        have htop := hns top (List.mem_cons_self ..)
        dsimp only
        rw [if_neg htop.2.2.1]
        exact ⟨ns', ds, rfl, fun x hx => hns x (List.mem_cons_of_mem _ hx),
          hds, hroot⟩
    · rw [if_neg h2]
      push_neg at h1
      refine ⟨comp :: ns, ds, by rw [hSeq]; rfl, ?_, hds, hroot⟩
      intro x hx
      rcases List.mem_cons.mp hx with h | h
      · subst h; exact ⟨h1.1, h1.2, h2, hc⟩
      · exact hns x h

theorem cleanComps_stackOK {rooted : Bool} :
    ∀ (cs : List (List Char)) (S : List (List Char)), StackOK rooted S →
      (∀ m ∈ cs, ∀ c ∈ m, c ≠ '/') →
      StackOK rooted (cs.foldl (cleanPush rooted) S) := by
  intro cs
  induction cs with
  | nil => intro S hS _; exact hS
  | cons c cs ih =>
    intro S hS hcs
    rw [List.foldl_cons]
    exact ih _ (cleanPush_stackOK hS (hcs c (List.mem_cons_self ..)))
      (fun m hm => hcs m (List.mem_cons_of_mem _ hm))

theorem joinParts_append_last :
    ∀ (ps : List (List Char)), ps ≠ [] → ∀ m : List Char,
      joinParts (ps ++ [m]) = joinParts ps ++ '/' :: m := by
  intro ps
  induction ps with
  | nil => intro h; exact absurd rfl h
  | cons p ps ih =>
    intro _ m
    match ps with
    | [] => rfl
    | q :: qs =>
      show joinParts (p :: (q :: qs ++ [m])) = joinParts (p :: q :: qs) ++ '/' :: m
      rw [show joinParts (p :: (q :: qs ++ [m]))
            = p ++ '/' :: joinParts (q :: qs ++ [m]) from rfl,
        ih (by simp) m,
        show joinParts (p :: q :: qs) = p ++ '/' :: joinParts (q :: qs) from rfl,
        List.append_assoc]
      rfl

theorem joinParts_cons (p : List Char) (ps : List (List Char)) :
    ∃ r, joinParts (p :: ps) = p ++ r := by
  match ps with
  | [] => exact ⟨[], by rw [joinParts, List.append_nil]⟩
  | q :: qs => exact ⟨'/' :: joinParts (q :: qs), rfl⟩

theorem splitSep_joinParts :
    ∀ (parts : List (List Char)), parts ≠ [] →
      (∀ p ∈ parts, ∀ c ∈ p, c ≠ '/') →
      splitSep (joinParts parts) = parts := by
  intro parts
  induction parts with
  | nil => intro h _; exact absurd rfl h
  | cons p ps ih =>
    intro _ hall
    match ps with
    | [] =>
      rw [show joinParts [p] = p from rfl,
        splitSep_noslash (hall p (List.mem_cons_self ..))]
    | q :: qs =>
      rw [show joinParts (p :: q :: qs) = p ++ '/' :: joinParts (q :: qs) from rfl,
        splitSep_append_sep,
        splitSep_noslash (hall p (List.mem_cons_self ..)),
        ih (by simp) (fun r hr => hall r (List.mem_cons_of_mem _ hr))]
      rfl

theorem cleanPush_skip_empty (rooted : Bool) (S : List (List Char)) :
    cleanPush rooted S [] = S := by
  rw [cleanPush.eq_def, if_pos (Or.inl rfl)]

theorem cleanPush_dotdot {S : List (List Char)}
    (hS : ∀ x ∈ S, x = ['.', '.']) :
    cleanPush false S ['.', '.'] = ['.', '.'] :: S := by
  rw [cleanPush.eq_def, if_neg (by simp), if_pos rfl]
  match S with
  | [] => rfl
  | top :: rest =>
    dsimp only
    rw [if_pos (hS top (List.mem_cons_self ..))]

theorem foldl_dotdots :
    ∀ (ds' S : List (List Char)), (∀ x ∈ ds', x = ['.', '.']) →
      (∀ x ∈ S, x = ['.', '.']) →
      List.foldl (cleanPush false) S ds' = ds'.reverse ++ S := by
  intro ds'
  induction ds' with
  | nil => intro S _ _; rfl
  | cons d ds'' ih =>
    intro S hds hS
    have hd : d = ['.', '.'] := hds d (List.mem_cons_self ..)
    have hS' : ∀ x ∈ ['.', '.'] :: S, x = ['.', '.'] := by
      intro x hx
      rcases List.mem_cons.mp hx with h | h
      · exact h
      · exact hS x h
    rw [List.foldl_cons, hd, cleanPush_dotdot hS,
      ih _ (fun x hx => hds x (List.mem_cons_of_mem _ hx)) hS',
      List.reverse_cons, List.append_assoc]
    rfl

theorem foldl_normals {rooted : Bool} :
    ∀ (ns S : List (List Char)), (∀ x ∈ ns, Norm x) →
      List.foldl (cleanPush rooted) S ns.reverse = ns ++ S := by
  intro ns
  induction ns with
  | nil => intro S _; rfl
  | cons n ns' ih =>
    intro S hns
    rw [List.reverse_cons, List.foldl_append, List.foldl_cons, List.foldl_nil,
      ih S (fun x hx => hns x (List.mem_cons_of_mem _ hx)),
      cleanPush_normal (hns n (List.mem_cons_self ..))]
    rfl

theorem stackOK_elems {rooted : Bool} {S : List (List Char)}
    (hS : StackOK rooted S) : ∀ x ∈ S, x ≠ [] ∧ ∀ c ∈ x, c ≠ '/' := by
  obtain ⟨ns, ds, hSeq, hns, hds, _⟩ := hS
  subst hSeq
  intro x hx
  rcases List.mem_append.mp hx with h | h
  · exact ⟨(hns x h).1, (hns x h).2.2.2⟩
  · rw [hds x h]
    exact ⟨by simp, by intro c hc; simp at hc; simp [hc]⟩

/-- Head of a rendered clean stack: nonempty, and its first character is a
separator exactly when the stack is rooted. -/
theorem render_head {rooted : Bool} {S : List (List Char)}
    (hS : StackOK rooted S) :
    ∃ c P', renderClean rooted S = c :: P' ∧ decide (c = '/') = rooted := by
  cases rooted with
  | true =>
    exact ⟨'/', joinParts S.reverse, rfl, by simp⟩
  | false =>
    rcases S with _ | ⟨s₀, S'⟩
    · exact ⟨'.', [], rfl, by simp⟩
    · rw [renderClean, if_neg (by simp), if_neg (by simp)]
      obtain ⟨p, ps, hps⟩ : ∃ p ps, (s₀ :: S').reverse = p :: ps := by
        cases h : (s₀ :: S').reverse with
        | nil => simp at h
        | cons p ps => exact ⟨p, ps, rfl⟩
      have hpS : p ∈ s₀ :: S' := by
        rw [← List.mem_reverse, hps]; exact List.mem_cons_self ..
      have hpel := stackOK_elems hS p hpS
      obtain ⟨c, p', hp⟩ : ∃ c p', p = c :: p' := by
        cases h : p with
        | nil => exact absurd h hpel.1
        | cons c p' => exact ⟨c, p', rfl⟩
      obtain ⟨r, hr⟩ := joinParts_cons p ps
      rw [hps, hr, hp]
      refine ⟨c, p' ++ r, rfl, ?_⟩
      have : c ≠ '/' := hpel.2 c (by rw [hp]; exact List.mem_cons_self ..)
      simp [this]

/-- Splitting and re-cleaning a rendered clean stack yields the stack back. -/
theorem cleanComps_split_render {rooted : Bool} {S : List (List Char)}
    (hS : StackOK rooted S) :
    cleanComps rooted (splitSep (renderClean rooted S)) = S := by
  obtain ⟨ns, ds, hSeq, hns, hds, hroot⟩ := hS
  cases rooted with
  | true =>
    have hds0 : ds = [] := hroot rfl
    subst hds0
    rw [List.append_nil] at hSeq
    subst hSeq
    rcases S with _ | ⟨n₀, ns'⟩
    · rfl
    · have hparts : splitSep (joinParts (n₀ :: ns').reverse)
          = (n₀ :: ns').reverse := by
        apply splitSep_joinParts _ (by simp)
        intro p hp
        rw [List.mem_reverse] at hp
        exact (hns p hp).2.2.2
      have hrender : renderClean true (n₀ :: ns')
          = [] ++ '/' :: joinParts ((n₀ :: ns').reverse) := by
        rw [renderClean, if_pos rfl]
        rfl
      rw [hrender, splitSep_append_sep, hparts, cleanComps,
        show splitSep ([] : List Char) ++ (n₀ :: ns').reverse
          = [] :: (n₀ :: ns').reverse from rfl,
        List.foldl_cons, cleanPush_skip_empty,
        foldl_normals (n₀ :: ns') [] hns, List.append_nil]
  | false =>
    subst hSeq
    rcases hnd : ns ++ ds with _ | ⟨s₀, S'⟩
    · rfl
    · rw [← hnd]
      have hall : ∀ p ∈ (ns ++ ds).reverse, ∀ c ∈ p, c ≠ '/' := by
        intro p hp
        rw [List.mem_reverse] at hp
        rcases List.mem_append.mp hp with h | h
        · exact (hns p h).2.2.2
        · rw [hds p h]
          intro c hc
          simp at hc
          simp [hc]
      have hparts : splitSep (joinParts (ns ++ ds).reverse)
          = (ns ++ ds).reverse :=
        splitSep_joinParts _ (by simp [hnd]) hall
      have hrender : renderClean false (ns ++ ds)
          = joinParts ((ns ++ ds).reverse) := by
        rw [renderClean, if_neg (by simp), if_neg (by simp [hnd])]
      have hdd : ∀ x ∈ ds.reverse, x = ['.', '.'] := by
        intro x hx
        rw [List.mem_reverse] at hx
        exact hds x hx
      rw [hrender, hparts, cleanComps, List.reverse_append, List.foldl_append,
        foldl_dotdots ds.reverse [] hdd (by simp), List.reverse_reverse,
        List.append_nil, foldl_normals ns ds hns]

/-- Unfolding of `cleanPath` on the cons form, definitionally. -/
theorem cleanPath_cons (c : Char) (cs : List Char) :
    cleanPath (c :: cs) =
      renderClean (decide (c = '/')) (cleanComps (decide (c = '/'))
        (splitSep (c :: cs))) := rfl

theorem cleanPath_render_slash {rooted : Bool} {S : List (List Char)}
    (hS : StackOK rooted S) :
    cleanPath (renderClean rooted S ++ ['/']) = renderClean rooted S := by
  obtain ⟨c, P', hP, hflag⟩ := render_head hS
  rw [hP, List.cons_append, cleanPath_cons, ← List.cons_append, ← hP,
    show renderClean rooted S ++ ['/'] = renderClean rooted S ++ '/' :: [] from rfl,
    splitSep_append_sep]
  rw [show splitSep ([] : List Char) = [[]] from rfl]
  have hfold : cleanComps (decide (c = '/'))
      (splitSep (renderClean rooted S) ++ [[]]) = S := by
    rw [hflag, cleanComps, List.foldl_append, List.foldl_cons, List.foldl_nil,
      show List.foldl (cleanPush rooted) [] (splitSep (renderClean rooted S))
        = cleanComps rooted (splitSep (renderClean rooted S)) from rfl,
      cleanComps_split_render hS, cleanPush_skip_empty]
  rw [hfold, hflag]

theorem cleanPath_render_join {rooted : Bool} {S : List (List Char)}
    {m : List Char} (hS : StackOK rooted S) (hm : Norm m) :
    cleanPath (renderClean rooted S ++ '/' :: m) = renderClean rooted (m :: S) := by
  obtain ⟨c, P', hP, hflag⟩ := render_head hS
  rw [hP, List.cons_append, cleanPath_cons, ← List.cons_append, ← hP,
    splitSep_append_sep, splitSep_noslash hm.2.2.2]
  have hfold : cleanComps (decide (c = '/'))
      (splitSep (renderClean rooted S) ++ [m]) = m :: S := by
    rw [hflag, cleanComps, List.foldl_append, List.foldl_cons, List.foldl_nil,
      show List.foldl (cleanPush rooted) [] (splitSep (renderClean rooted S))
        = cleanComps rooted (splitSep (renderClean rooted S)) from rfl,
      cleanComps_split_render hS, cleanPush_normal hm]
  rw [hfold, hflag]

/-- Surface form of pushing a normal component onto a rendered stack. -/
theorem render_cons_shape {rooted : Bool} {S : List (List Char)}
    {m : List Char} (hm : Norm m) :
    (rooted = true ∧ S = [] ∧ renderClean rooted (m :: S) = '/' :: m) ∨
    (rooted = false ∧ S = [] ∧ renderClean rooted (m :: S) = m) ∨
    (S ≠ [] ∧ renderClean rooted (m :: S)
      = renderClean rooted S ++ '/' :: m) := by
  rcases S with _ | ⟨s₀, S'⟩
  · cases rooted with
    | true => exact Or.inl ⟨rfl, rfl, rfl⟩
    | false => exact Or.inr (Or.inl ⟨rfl, rfl, rfl⟩)
  · refine Or.inr (Or.inr ⟨by simp, ?_⟩)
    have hjp : joinParts ((m :: s₀ :: S').reverse)
        = joinParts ((s₀ :: S').reverse) ++ '/' :: m := by
      rw [List.reverse_cons, joinParts_append_last _ (by simp)]
    cases rooted with
    | true =>
      rw [renderClean, if_pos rfl, renderClean, if_pos rfl, hjp]
      rfl
    | false =>
      rw [renderClean, if_neg (by simp), if_neg (by simp), renderClean,
        if_neg (by simp), if_neg (by simp), hjp]

/-- Go `filepath.Base` of `P ++ "/" ++ m` for a slash-free nonempty `m`. -/
theorem basePath_append_sep {P m : List Char} (hne : m ≠ [])
    (hm : ∀ c ∈ m, c ≠ '/') : basePath (P ++ '/' :: m) = m := by
  obtain ⟨c₀, m', hmeq⟩ : ∃ c₀ m', m.reverse = c₀ :: m' := by
    cases h : m.reverse with
    | nil => exact absurd (by simpa using congrArg List.reverse h) hne
    | cons c₀ m' => exact ⟨c₀, m', rfl⟩
  have hc₀ : c₀ ∈ m := by rw [← List.mem_reverse, hmeq]; exact List.mem_cons_self ..
  have hrev : (P ++ '/' :: m).reverse = c₀ :: (m' ++ '/' :: P.reverse) := by
    rw [List.reverse_append, List.reverse_cons, List.append_assoc, hmeq]
    rfl
  have hlast : lastElem (P ++ '/' :: m) = m := by
    rw [lastElem, hrev, List.dropWhile_cons,
      if_neg (by simpa using hm c₀ hc₀)]
    rw [show c₀ :: (m' ++ '/' :: P.reverse)
          = (c₀ :: m') ++ '/' :: P.reverse from rfl,
      List.takeWhile_append_of_pos (by
        intro a ha
        rw [← hmeq, List.mem_reverse] at ha
        simpa using hm a ha),
      List.takeWhile_cons]
    simp [← hmeq]
  rw [basePath, if_neg (by simp), hlast,
    if_neg (by simpa [List.isEmpty_iff] using hne)]

/-- Go `filepath.Dir` of `P ++ "/" ++ m` for a slash-free nonempty `m` is
`Clean (P ++ "/")`. -/
theorem dirPath_append_sep {P m : List Char} (hne : m ≠ [])
    (hm : ∀ c ∈ m, c ≠ '/') :
    dirPath (P ++ '/' :: m) = cleanPath (P ++ ['/']) := by
  rw [dirPath]
  have hrev : (P ++ '/' :: m).reverse = m.reverse ++ '/' :: P.reverse := by
    rw [List.reverse_append, List.reverse_cons, List.append_assoc]
    rfl
  rw [hrev, List.dropWhile_append_of_pos (by
      intro a ha
      rw [List.mem_reverse] at ha
      simpa using hm a ha),
    List.dropWhile_cons, if_neg (by simp)]
  rw [List.reverse_cons, List.reverse_reverse]

theorem dirPath_noslash {m : List Char} (hm : ∀ c ∈ m, c ≠ '/') :
    dirPath m = ['.'] := by
  rw [dirPath]
  have h1 : m.reverse.dropWhile (fun c => c ≠ '/') = [] := by
    rw [List.dropWhile_eq_nil_iff]
    intro x hx
    rw [List.mem_reverse] at hx
    simpa using hm x hx
  rw [h1]
  rfl

theorem joinPath_dot {m : List Char} (hm : Norm m) : joinPath ['.'] m = m := by
  rw [joinPath, if_neg (by simp)]
  rw [show (['.'] ++ '/' :: m) = '.' :: '/' :: m from rfl, cleanPath_cons]
  rw [show ('.' :: '/' :: m) = ['.'] ++ '/' :: m from rfl, splitSep_append_sep,
    splitSep_noslash hm.2.2.2,
    show splitSep ['.'] = [['.']] from rfl]
  rw [show (decide ('.' = '/')) = false from rfl]
  rw [cleanComps, show ([['.']] ++ [m] : List (List Char)) = ['.'] :: [m] from rfl,
    List.foldl_cons,
    show cleanPush false [] ['.'] = [] from rfl, List.foldl_cons,
    cleanPush_normal hm, List.foldl_nil]
  rfl

theorem joinPath_root {m : List Char} (hm : Norm m) :
    joinPath ['/'] m = '/' :: m := by
  rw [joinPath, if_neg (by simp)]
  rw [show (['/'] ++ '/' :: m) = '/' :: '/' :: m from rfl, cleanPath_cons]
  rw [show ('/' :: '/' :: m) = [] ++ '/' :: ([] ++ '/' :: m) from rfl,
    splitSep_append_sep, splitSep_append_sep, splitSep_noslash hm.2.2.2,
    show splitSep ([] : List Char) = [[]] from rfl]
  rw [show (decide ('/' = '/')) = true from rfl]
  rw [cleanComps,
    show ([[]] ++ ([[]] ++ [m]) : List (List Char)) = [] :: [] :: [m] from rfl,
    List.foldl_cons, cleanPush_skip_empty, List.foldl_cons,
    cleanPush_skip_empty, List.foldl_cons, cleanPush_normal hm, List.foldl_nil]
  rfl

/-- The key path identity behind the idempotence of the rename pass:
joining a nonempty directory with a normal element, the base name of the
result is the element, and re-joining the result's directory with the
element gives the result back. -/
theorem joinPath_dir_base {d m : List Char} (hd : d ≠ []) (hm : Norm m) :
    basePath (joinPath d m) = m ∧
    joinPath (dirPath (joinPath d m)) m = joinPath d m := by
  obtain ⟨c, d', hdeq⟩ : ∃ c d', d = c :: d' := by
    cases h : d with
    | nil => exact absurd h hd
    | cons c d' => exact ⟨c, d', rfl⟩
  subst hdeq
  rw [joinPath, if_neg (by simp)]
  rw [show ((c :: d') ++ '/' :: m) = c :: (d' ++ '/' :: m) from rfl,
    cleanPath_cons,
    show (c :: (d' ++ '/' :: m)) = (c :: d') ++ '/' :: m from rfl,
    splitSep_append_sep, splitSep_noslash hm.2.2.2]
  have hS₀ : StackOK (decide (c = '/')) (cleanComps (decide (c = '/'))
      (splitSep (c :: d'))) :=
    cleanComps_stackOK _ [] (stackOK_nil _) (splitSep_parts_noslash _)
  have hfold : cleanComps (decide (c = '/')) (splitSep (c :: d') ++ [m])
      = m :: cleanComps (decide (c = '/')) (splitSep (c :: d')) := by
    rw [cleanComps, List.foldl_append,
      show List.foldl (cleanPush (decide (c = '/'))) [] (splitSep (c :: d'))
        = cleanComps (decide (c = '/')) (splitSep (c :: d')) from rfl,
      List.foldl_cons, cleanPush_normal hm, List.foldl_nil]
  rw [hfold]
  set rooted := decide (c = '/') with hrooted
  set S₀ := cleanComps rooted (splitSep (c :: d')) with hS₀def
  rcases @render_cons_shape rooted S₀ m hm with
    ⟨hr, hSnil, hform⟩ | ⟨hr, hSnil, hform⟩ | ⟨hSne, hform⟩
  · -- rooted, empty stack: the result is "/m"
    rw [hform]
    constructor
    · exact basePath_append_sep (P := []) hm.1 hm.2.2.2
    · have hdir : dirPath ('/' :: m) = cleanPath ([] ++ ['/']) :=
        dirPath_append_sep (P := []) hm.1 hm.2.2.2
      rw [hdir]
      rw [show cleanPath ([] ++ ['/']) = ['/'] from rfl]
      exact joinPath_root hm
  · -- relative, empty stack: the result is m itself
    rw [hform]
    constructor
    · exact basePath_of_noslash hm.1 hm.2.2.2
    · rw [dirPath_noslash hm.2.2.2]
      exact joinPath_dot hm
  · -- general: the result is P ++ "/" ++ m with P the rendered stack
    rw [hform]
    constructor
    · exact basePath_append_sep hm.1 hm.2.2.2
    · rw [dirPath_append_sep hm.1 hm.2.2.2, cleanPath_render_slash hS₀]
      obtain ⟨c₁, P', hP, _⟩ := render_head hS₀
      rw [joinPath, if_neg (by rw [hP]; simp)]
      exact (cleanPath_render_join hS₀ hm).trans hform

/-- Go `filepath.Clean`, hence `filepath.Dir`, never returns the empty string. -/
theorem cleanPath_ne_nil (p : List Char) : cleanPath p ≠ [] := by
  cases p with
  | nil => simp [cleanPath]
  | cons c cs =>
    rw [cleanPath_cons]
    obtain ⟨c', P', hP, _⟩ := @render_head (decide (c = '/'))
      (cleanComps (decide (c = '/')) (splitSep (c :: cs)))
      (cleanComps_stackOK _ [] (stackOK_nil _) (splitSep_parts_noslash (c :: cs)))
    rw [hP]
    simp

theorem dirPath_ne_nil (p : List Char) : dirPath p ≠ [] :=
  cleanPath_ne_nil _

/-- If the base name of `f` is none of `"."`, `"/"`, `".."`, then the
extractor's output is a normal path component. -/
theorem extract_norm {f : List Char} (h1 : basePath f ≠ ['.'])
    (h2 : basePath f ≠ ['/']) (h3 : basePath f ≠ ['.', '.']) :
    Norm (extractMovieCode f) := by
  cases hfind : findCode (cleanNoise (basePath f)) with
  | none =>
    have hout : extractMovieCode f = basePath f := by
      rw [extractMovieCode, extractBase, hfind]
    rw [hout]
    rcases basePath_cases f with h | ⟨hne, hns⟩
    · exact absurd h h2
    · exact ⟨hne, h1, h3, hns⟩
  | some m =>
    have hout : extractMovieCode f = upStr m ++ extPath (basePath f) := by
      rw [extractMovieCode, extractBase, hfind]
    obtain ⟨L, D, S, hmeq, hL, hLa, hD, hDd, hS⟩ := findCode_shape hfind
    obtain ⟨l₀, L', hLeq⟩ : ∃ l₀ L', L = l₀ :: L' := by
      cases h : L with
      | nil => exact absurd h hL
      | cons l₀ L' => exact ⟨l₀, L', rfl⟩
    have hhead : ∃ rest, extractMovieCode f = upCh l₀ :: rest := by
      rw [hout, hmeq, hLeq]
      exact ⟨upStr (L' ++ '-' :: (D ++ S)) ++ extPath (basePath f), rfl⟩
    obtain ⟨rest, hcons⟩ := hhead
    have hup : isUpperCh (upCh l₀) = true := by
      apply isUpperCh_upCh
      exact List.all_eq_true.mp hLa l₀ (by rw [hLeq]; exact List.mem_cons_self ..)
    have hne := isUpperCh_ne hup
    refine ⟨by rw [hcons]; simp, ?_, ?_, ?_⟩
    · rw [hcons]
      intro hc
      have : upCh l₀ = '.' := by injection hc
      exact hne.2.2.2.2.1 this
    · rw [hcons]
      intro hc
      have : upCh l₀ = '.' := by injection hc
      exact hne.2.2.2.2.1 this
    · intro c hc
      rw [hout] at hc
      rw [hmeq] at hc
      rw [upStr_code_decomp hDd] at hc
      rcases List.mem_append.mp hc with hc | hc
      · exact (upCode_chars hLa hDd (upStr_suffixShape hS) c hc).2
      · rcases extPath_shape (basePath f) with h | ⟨t, h, ht⟩ <;> rw [h] at hc
        · simp at hc
        · rcases List.mem_cons.mp hc with hc | hc
          · subst hc; decide
          · exact (ht c hc).2

/-- The renaming target is a fixed point of the rename computation. -/
theorem renameTarget_idem {f : List Char} (h1 : basePath f ≠ ['.'])
    (h2 : basePath f ≠ ['/']) (h3 : basePath f ≠ ['.', '.']) :
    renameTarget (renameTarget f) = renameTarget f := by
  have hm : Norm (extractMovieCode f) := extract_norm h1 h2 h3
  obtain ⟨hbase, hjoin⟩ := joinPath_dir_base (dirPath_ne_nil f) hm
  have hextu : extractMovieCode (renameTarget f) = extractMovieCode f := by
    rw [renameTarget, extractMovieCode, hbase]
    have hfix : extractMovieCode (extractMovieCode f)
        = extractBase (extractMovieCode f) := by
      rw [extractMovieCode, basePath_of_noslash hm.1 hm.2.2.2]
    rw [← hfix, extractMovieCode_idem]
  rw [show renameTarget (renameTarget f)
      = joinPath (dirPath (renameTarget f)) (extractMovieCode (renameTarget f))
      from rfl, hextu]
  exact hjoin

/-! ## C6 — the second rename pass skips every file -/

/-- C6: the rename pass is idempotent.  The computed target path is a fixed
point of the target computation (for any file whose base name is a proper
name, i.e. not `"."`, `"/"` or `".."` — which holds for every regular file a
directory walk can yield); consequently, when every file of the second run
sits at a first-pass target path (the "no collisions introduced by
deconfliction" assumption: no file needed a `_N` suffix), the second pass
reports every file as skipped, performs no rename, and leaves the filesystem
unchanged. -/
theorem C6_second_pass_idempotent :
    (∀ f : List Char, basePath f ≠ ['.'] → basePath f ≠ ['/'] →
      basePath f ≠ ['.', '.'] →
      renameTarget (renameTarget f) = renameTarget f) ∧
    (∀ (ren : List Char → List Char → Bool) (fuel : Nat)
       (fs files : List (List Char)),
      (∀ u ∈ files, ∃ f, basePath f ≠ ['.'] ∧ basePath f ≠ ['/'] ∧
        basePath f ≠ ['.', '.'] ∧ u = renameTarget f) →
      renamePass ren fuel fs files = (fs, files.map .skipped)) := by
  constructor
  · intro f h1 h2 h3
    exact renameTarget_idem h1 h2 h3
  · intro ren fuel fs files
    induction files with
    | nil => intro _; rfl
    | cons u rest ih =>
      intro hall
      obtain ⟨f, hf1, hf2, hf3, hueq⟩ := hall u (List.mem_cons_self ..)
      have hskip : u = joinPath (dirPath u) (extractMovieCode u) := by
        conv_lhs => rw [hueq]
        rw [hueq,
          show joinPath (dirPath (renameTarget f))
              (extractMovieCode (renameTarget f))
            = renameTarget (renameTarget f) from rfl,
          renameTarget_idem hf1 hf2 hf3]
      simp only [renamePass]
      rw [if_pos hskip, ih (fun v hv => hall v (List.mem_cons_of_mem _ hv))]
      rfl

theorem C6_second_pass_idempotent_witness :
    renamePass (fun _ _ => true) 3 ["d/other.mkv".data]
        [renameTarget ("d/ab-1.mp4".data)]
      = (["d/other.mkv".data],
          [.skipped (renameTarget ("d/ab-1.mp4".data))]) :=
  C6_second_pass_idempotent.2 (fun _ _ => true) 3 ["d/other.mkv".data]
    [renameTarget ("d/ab-1.mp4".data)]
    (by
      intro u hu
      refine ⟨"d/ab-1.mp4".data, by decide, by decide, by decide, ?_⟩
      simpa using hu)

end ScrapeMovieInfo
